import Mathlib

/-!
Verification of the `task_sequencer` orchestration engine against its
natural-language specification.

The development shallowly embeds the Python sources:

* `src/task_sequencer/progress.py`    → `TaskStatus`, `TaskProgress`
* `src/task_sequencer/interfaces.py`  → `TaskResult`, the parameterized
  iterable-task execution policy (`paramExecute` and friends)
* `src/task_sequencer/validators.py`  → `validateModel` and the three checks
* `src/task_sequencer/core.py`        → `executeModel` (TaskOrchestrator.execute)
* `src/task_sequencer/iterators.py`   → `runResume` (ResumeIterator)

Python exceptions are modelled with `Except`: a function that can raise
returns `Except DepError _` (validation / orchestration) or carries the raised
message as a `String`.  Error payloads that the source renders as f-strings
are modelled structurally by the inductive `DepError`, one constructor per
`raise` site, carrying exactly the data interpolated into the message.
Timestamps (`started_at`, `completed_at`), logging, and the task `data` /
`metadata` payloads that no claim constrains are omitted.  Progress-store
I/O faults are out of scope (the spec treats the store as an external
collaborator); the store is modelled as the single checkpoint slot the
claims talk about.
-/

/-- Model of `TaskStatus` from `progress.py`. -/
inductive TaskStatus where
  | pending
  | in_progress
  | completed
  | failed
  | cancelled
deriving DecidableEq, Repr

/-- Model of `TaskResult` from `interfaces.py` (the `data`/`metadata`
payloads, unconstrained by the claims, are omitted). -/
structure TaskResult where
  status : TaskStatus
  error : Option String
deriving DecidableEq, Repr

/-- Model of the derived `TaskResult.success` property: true iff COMPLETED. -/
def TaskResult.success (r : TaskResult) : Bool :=
  match r.status with
  | .completed => true
  | _ => false

/-- Model of `TaskResult.success_result`. -/
def TaskResult.success_result : TaskResult := ⟨.completed, none⟩

/-- Model of `TaskResult.failure_result`. -/
def TaskResult.failure_result (e : String) : TaskResult := ⟨.failed, some e⟩

/-- Model of `TaskProgress` from `progress.py` (datetime fields omitted). -/
structure TaskProgress where
  task_name : String
  status : TaskStatus
  total_items : Option Nat
  processed_items : Nat
  last_processed_id : Option String
deriving DecidableEq, Repr

/-- Observable behaviour of one task's `execute` (and, for `IterableTask`,
its `get_items`): it either returns a `TaskResult` or raises an exception
whose message is the carried string. -/
inductive TaskBehavior where
  | plain (outcome : Except String TaskResult)
  | iterable (items : List String) (outcome : Except String TaskResult)

/-- Model of a registered task: its `name` and `depends_on` properties plus
its `execute` behaviour. -/
structure TaskSpec where
  name : String
  depends_on : List String
  behavior : TaskBehavior

/-- Model of `TaskRegistry._tasks` lookups (`registry.get`): the registry is
a name-keyed mapping; names are unique, so a first-match scan is exact. -/
def regGet (reg : List TaskSpec) (n : String) : Option TaskSpec :=
  reg.find? (fun t => t.name == n)

/-- Structured model of the `DependencyError` messages raised by
`validators.py` and `core.py`: one constructor per `raise` site, carrying the
data the source interpolates into the message.  `fuelExhausted` is a model
artifact of the fueled depth-first search and is proved unreachable. -/
inductive DepError where
  | tasksNotFound (names : List String)
  | registryKeyNotFound (name : String)
  | cyclicDependency (cycle : List String)
  | missingDeps (task : String) (deps : List String)
  | outOfOrderDeps (task : String) (deps : List String)
  | depsNotSatisfied (task : String)
  | fuelExhausted
deriving DecidableEq, Repr

/-- Model of `DependencyValidator._check_all_tasks_exist`: collect every name
of `task_order` that does not resolve in the registry and fail listing all of
them. -/
def checkAllTasksExist (reg : List TaskSpec) (order : List String) :
    Except DepError Unit :=
  let missing := order.filter (fun n => (regGet reg n).isNone)
  if missing.isEmpty then .ok () else .error (.tasksNotFound missing)

/-- Model of the dependency graph built by
`_check_cyclic_dependencies`: for each task of `task_order`, its
dependencies restricted to names that appear in `task_order`.
`registry.get` raises `KeyError` on an unknown name. -/
def buildGraph (reg : List TaskSpec) : List String → List String →
    Except DepError (List (String × List String))
  | _, [] => .ok []
  | order, n :: rest =>
    match regGet reg n with
    | none => .error (.registryKeyNotFound n)
    | some t =>
      match buildGraph reg order rest with
      | .error e => .error e
      | .ok g => .ok ((n, t.depends_on.filter (fun d => order.contains d)) :: g)

/-- Model of `graph.get(node, [])`: the adjacency list of a node. -/
def gnb (g : List (String × List String)) (n : String) : List String :=
  match g.find? (fun p => p.1 == n) with
  | some p => p.2
  | none => []

/-- Model of `path.index(neighbor)`: index of the first occurrence. -/
def firstIdxOf (l : List String) (x : String) : Nat :=
  match l with
  | [] => 0
  | a :: rest => if a == x then 0 else firstIdxOf rest x + 1

/-- Model of the cycle reported by `_check_cyclic_dependencies`:
`path[path.index(neighbor):] + [neighbor]`. -/
def buildCycle (path : List String) (nb : String) : List String :=
  path.drop (firstIdxOf path nb) ++ [nb]

/-- Model of the `for neighbor in graph.get(node, [])` loop inside
`has_cycle`, parametric in the recursive descent `step` (instantiated with
`hasCycleF` at one less fuel): an unvisited neighbour is descended into, a
neighbour on the current recursion stack raises the cyclic-dependency error,
any other neighbour is skipped. -/
def neighborsGo (step : String → List String → Except DepError (List String))
    (path : List String) :
    List String → List String → Except DepError (List String)
  | [], visited => .ok visited
  | nb :: rest, visited =>
    if nb ∈ visited then
      if nb ∈ path then .error (.cyclicDependency (buildCycle path nb))
      else neighborsGo step path rest visited
    else
      match step nb visited with
      | .error e => .error e
      | .ok v2 => neighborsGo step path rest v2

/-- Model of the recursive `has_cycle(node, path)` helper of
`_check_cyclic_dependencies`.  Entry adds the node to `visited`, to the
recursion stack and to `path` (the source keeps `rec_stack` equal to the set
of `path` elements, so `path` alone is carried); the result is the updated
`visited` set.  The extra `fuel` argument makes the recursion structural; it
is decremented once per recursive descent, and `validateModel` supplies
enough fuel for it never to run out (proved below). -/
def hasCycleF (g : List (String × List String)) :
    Nat → String → List String → List String → Except DepError (List String)
  | 0, _, _, _ => .error .fuelExhausted
  | fuel + 1, node, path, visited =>
    neighborsGo (fun nb vis => hasCycleF g fuel nb (path ++ [node]) vis)
      (path ++ [node]) (gnb g node) (node :: visited)

/-- Model of the top-level `for task_name in task_order` loop of
`_check_cyclic_dependencies`: start a depth-first search from every not yet
visited task. -/
def checkCyclicLoop (g : List (String × List String)) (fuel : Nat) :
    List String → List String → Except DepError Unit
  | [], _ => .ok ()
  | n :: rest, visited =>
    if n ∈ visited then checkCyclicLoop g fuel rest visited
    else
      match hasCycleF g fuel n [] visited with
      | .error e => .error e
      | .ok v2 => checkCyclicLoop g fuel rest v2

/-- Model of `DependencyValidator._check_cyclic_dependencies`. -/
def checkCyclicDeps (reg : List TaskSpec) (order : List String) :
    Except DepError Unit :=
  match buildGraph reg order order with
  | .error e => .error e
  | .ok g => checkCyclicLoop g (order.length + 1) order []

/-- Model of the dict comprehension
`task_positions = {task_name: i for i, task_name in enumerate(task_order)}`:
a later occurrence of the same name overwrites, so the recorded position is
the index of the LAST occurrence.  Returns 0 for a name not in the list (the
callers only apply it to members). -/
def lastPos (order : List String) (n : String) : Nat :=
  match order with
  | [] => 0
  | a :: rest =>
    if n ∈ rest then lastPos rest n + 1
    else if a == n then 0 else lastPos rest n + 1

/-- Model of the `for task_name in task_order` loop of
`_check_dependencies_in_order`: for the first offending task, raise listing
all of its dependencies missing from `task_order`, else all of its
dependencies not at a strictly earlier (last-occurrence) position. -/
def checkDepsInOrderLoop (reg : List TaskSpec) (order : List String) :
    List String → Except DepError Unit
  | [] => .ok ()
  | n :: rest =>
    match regGet reg n with
    | none => .error (.registryKeyNotFound n)
    | some t =>
      let missing := t.depends_on.filter (fun d => !(order.contains d))
      if !missing.isEmpty then .error (.missingDeps n missing)
      else
        let invalid := t.depends_on.filter
          (fun d => lastPos order n ≤ lastPos order d)
        if !invalid.isEmpty then .error (.outOfOrderDeps n invalid)
        else checkDepsInOrderLoop reg order rest

/-- Model of `DependencyValidator._check_dependencies_in_order`. -/
def checkDepsInOrder (reg : List TaskSpec) (order : List String) :
    Except DepError Unit :=
  checkDepsInOrderLoop reg order order

/-- Model of `DependencyValidator.validate`: the three checks in source
order — existence, cycle freedom, order consistency. -/
def validateModel (reg : List TaskSpec) (order : List String) :
    Except DepError Unit := do
  checkAllTasksExist reg order
  checkCyclicDeps reg order
  checkDepsInOrder reg order

/-- Single-quote character, built numerically (ASCII 39), used in the
`TaskExecutionError` message templates of `core.py`. -/
def quoteChar : String := String.singleton (Char.ofNat 39)

/-- Model of the message of the `TaskExecutionError` raised by
`TaskOrchestrator._execute_task` around a task exception. -/
def plainWrapMsg (name msg : String) : String :=
  "Error executing task " ++ quoteChar ++ name ++ quoteChar ++ ": " ++ msg

/-- Model of the message of the `TaskExecutionError` raised by
`TaskOrchestrator._execute_iterable_task` around a task exception. -/
def iterWrapMsg (name msg : String) : String :=
  "Error executing iterable task " ++ quoteChar ++ name ++ quoteChar ++ ": " ++ msg

/-- Model of a Python `dict` update `m[k] = v` on an insertion-ordered
mapping represented as an association list: overwriting keeps the original
insertion position, a new key is appended. -/
def dictInsert {β : Type} (m : List (String × β)) (k : String) (v : β) :
    List (String × β) :=
  if m.any (fun p => p.1 == k) then
    m.map (fun p => if p.1 == k then (k, v) else p)
  else m ++ [(k, v)]

/-- Model of a Python `dict` lookup `m.get(k)`. -/
def dictGet {β : Type} (m : List (String × β)) (k : String) : Option β :=
  (m.find? (fun p => p.1 == k)).map Prod.snd

/-- Model of the dispatch inside `TaskOrchestrator.execute`:
`_execute_iterable_task` for an `IterableTask` (which returns a success
immediately if `get_items` yields no items, without calling the task's
`execute`), `_execute_task` otherwise.  Both wrap any exception escaping the
task in a `TaskExecutionError` whose message embeds the task name and the
original message. -/
def dispatchExec (name : String) (b : TaskBehavior) : Except String TaskResult :=
  match b with
  | .plain outcome =>
    match outcome with
    | .ok r => .ok r
    | .error m => .error (plainWrapMsg name m)
  | .iterable items outcome =>
    if items.length = 0 then .ok TaskResult.success_result
    else
      match outcome with
      | .ok r => .ok r
      | .error m => .error (iterWrapMsg name m)

/-- Mutable state of the `for task_name in task_order` loop of
`TaskOrchestrator.execute`: the `completed_tasks` list (the `completed_set`
holds the same names and is folded into it), the aggregate `results` dict and
the `context.results` dict. -/
structure RunState where
  completed : List String
  results : List (String × TaskResult)
  ctxResults : List (String × TaskResult)
deriving Repr

/-- Model of the task loop of `TaskOrchestrator.execute`: look the task up
(`KeyError` if absent), re-check its dependencies against the completed set
(raising `DependencyError` otherwise), run it, record the result in both
result dicts; a successful task is appended to the completed list, a failed
or raising one stops the loop.  Progress-store bookkeeping
(`_mark_task_started` / `mark_completed` / `_mark_task_failed`) does not
affect the claims' observables and is omitted. -/
def runLoop (reg : List TaskSpec) : List String → RunState →
    Except DepError RunState
  | [], s => .ok s
  | n :: rest, s =>
    match regGet reg n with
    | none => .error (.registryKeyNotFound n)
    | some t =>
      if t.depends_on.all (fun d => s.completed.contains d) then
        match dispatchExec n t.behavior with
        | .ok r =>
          let s2 : RunState :=
            ⟨s.completed, dictInsert s.results n r, dictInsert s.ctxResults n r⟩
          if r.success then
            runLoop reg rest ⟨s2.completed ++ [n], s2.results, s2.ctxResults⟩
          else .ok s2
        | .error msg =>
          let er := TaskResult.failure_result msg
          .ok ⟨s.completed, dictInsert s.results n er, dictInsert s.ctxResults n er⟩
      else .error (.depsNotSatisfied n)

/-- Model of `ExecutionResult` from `core.py` (the `metadata` field, holding
only the mode and resume flags, is omitted). -/
structure ExecutionResult where
  status : TaskStatus
  results : List (String × TaskResult)
  completed_tasks : List String
  failed_tasks : List String
deriving Repr

/-- Model of `TaskOrchestrator.execute`: validate, run the task loop, then
assemble the `ExecutionResult` (failed tasks are the result entries that are
not successes, the overall status is COMPLETED iff every entry of
`task_order` completed).  The final `context.results` dict is returned
alongside.  A `DependencyError` (from validation or from the per-task
re-check) propagates to the caller as the `Except.error` case. -/
def executeModel (reg : List TaskSpec) (order : List String) :
    Except DepError (ExecutionResult × List (String × TaskResult)) :=
  match validateModel reg order with
  | .error e => .error e
  | .ok _ =>
    match runLoop reg order ⟨[], [], []⟩ with
    | .error e => .error e
    | .ok s =>
      let failed := (s.results.filter (fun p => !p.2.success)).map Prod.fst
      let status := if s.completed.length = order.length
        then TaskStatus.completed else TaskStatus.failed
      .ok (⟨status, s.results, s.completed, failed⟩, s.ctxResults)

/-- Model of `ResumeIterator._find_start_index`: with no checkpoint or no
recorded `last_processed_id`, start at 0; otherwise resume just after the
first item whose extracted id equals the recorded one; with no match, start
at 0. -/
def findStartIndex {α : Type} (items : List α) (idex : α → String)
    (progress : Option TaskProgress) : Nat :=
  match progress with
  | none => 0
  | some p =>
    match p.last_processed_id with
    | none => 0
    | some lastId =>
      match items.findIdx? (fun it => idex it == lastId) with
      | some i => i + 1
      | none => 0

/-- Model of the checkpoint written by `ResumeIterator._save_progress` for
the item at `idx` (an IN_PROGRESS record with the running count and the
just-consumed item's id). -/
def saveProgressRec {α : Type} (items : List α) (idex : α → String)
    (tname : String) (idx : Nat) (item : α) : TaskProgress :=
  ⟨tname, .in_progress, some items.length, idx + 1, some (idex item)⟩

/-- Model of driving a `ResumeIterator` to exhaustion (`__next__`
repeatedly): the structural argument is the remaining suffix of `items`
(`remaining = items.drop cur`, which the callers establish); each step
yields `items[cur]` and, every `save_interval`-th step past the start index,
persists a fresh checkpoint for the just-consumed item `items[cur2 - 1]`
into the store (modelled as the single checkpoint slot for `task_name`).
`_save_progress` ignores an out-of-range index. -/
def runResume {α : Type} (items : List α) (idex : α → String) (tname : String)
    (saveInterval : Nat) (start : Nat) :
    List α → Nat → Option TaskProgress → List α × Option TaskProgress
  | [], _, store => ([], store)
  | item :: remaining, cur, store =>
    let cur2 := cur + 1
    let store2 :=
      if (cur2 - start) % saveInterval = 0 then
        match items.get? (cur2 - 1) with
        | some it2 => some (saveProgressRec items idex tname (cur2 - 1) it2)
        | none => store
      else store
    let rest := runResume items idex tname saveInterval start remaining cur2 store2
    (item :: rest.1, rest.2)

/-- Model of a full pass over a `ResumeIterator` built on a store whose
checkpoint for the task is `progress`: `__iter__` resets the position to the
start index computed at construction time, then the items are consumed to
exhaustion. -/
def resumeRun {α : Type} (items : List α) (idex : α → String) (tname : String)
    (saveInterval : Nat) (progress : Option TaskProgress) :
    List α × Option TaskProgress :=
  let start := findStartIndex items idex progress
  runResume items idex tname saveInterval start (items.drop start) start progress

/-- Error-handling policy of `ParameterizedIterableTask` (`error_strategy`);
`cont` models the Python literal `"continue"`. -/
inductive ErrorStrategy where
  | stop
  | cont
  | retry
deriving DecidableEq, Repr

/-- State threaded through `ParameterizedIterableTask.execute`: the `errors`
list of (parameter, message) pairs and the `processed` counter. -/
structure ParamState (α : Type) where
  errors : List (α × String)
  processed : Nat
deriving DecidableEq, Repr

/-- Outcome of the per-parameter `while` loop of
`ParameterizedIterableTask.execute`: either move to the next parameter or
abort the whole parameter list (`return self._create_result(...)`). -/
inductive ParamStep (α : Type) where
  | next (s : ParamState α)
  | halt (s : ParamState α)
deriving DecidableEq, Repr

/-- Message of the `ValueError` raised by Python's `list.remove` when the
element is absent. -/
def removeErrMsg : String := "list.remove(x): x not in list"

/-- Model of Python `list.remove`: drop the first occurrence (the callers
guard for membership; absence raises, handled at the call site). -/
def removeFirst {α : Type} [DecidableEq α] :
    List (α × String) → (α × String) → List (α × String)
  | [], _ => []
  | a :: rest, x => if a = x then rest else a :: removeFirst rest x

/-- Model of the `while retries <= self.max_retries and not success` loop of
`ParameterizedIterableTask.execute` for one parameter, with the default
`on_error` (which returns `None`, deferring to `error_strategy`).  `beh p k`
is the outcome of `execute_for_parameter(p, context)` on attempt `k`.  On a
successful attempt the parameter is counted processed and, after a retry,
the previously recorded error tuple is removed — if that tuple is no longer
in the list (its message changed between attempts), Python's `list.remove`
raises a `ValueError` that the surrounding `except` swallows, after which
the loop exits because `success` is already set.  On a failed attempt the
error is appended only for the first attempt, and the strategy decides
whether to halt everything, move on, or retry.  `left` is the number of
retries still allowed: it stands for `max_retries - retries`, so the source
guard `retries < self.max_retries` is the test `left ≠ 0`, which makes the
recursion structural; the callers start with `left = max_retries` and
`retries = 0`. -/
def attemptLoop {α : Type} [DecidableEq α] (strat : ErrorStrategy)
    (beh : α → Nat → Except String Unit) (p : α) :
    Nat → Nat → Option (α × String) → ParamState α → ParamStep α
  | left, retries, pe, s =>
    match beh p retries with
    | .ok _ =>
      let s1 : ParamState α := ⟨s.errors, s.processed + 1⟩
      match pe with
      | none => .next s1
      | some t =>
        if t ∈ s1.errors then .next ⟨removeFirst s1.errors t, s1.processed⟩
        else
          let s2 : ParamState α :=
            if retries = 0 then ⟨s1.errors ++ [(p, removeErrMsg)], s1.processed⟩
            else s1
          match strat with
          | .stop => .halt s2
          | .cont => .next s2
          | .retry => .next s2
    | .error m =>
      let s1 : ParamState α :=
        if retries = 0 then ⟨s.errors ++ [(p, m)], s.processed⟩ else s
      match strat with
      | .stop => .halt s1
      | .cont => .next s1
      | .retry =>
        match left with
        | l + 1 => attemptLoop strat beh p l (retries + 1) (some (p, m)) s1
        | 0 => .next s1

/-- Model of the `for param in parameters` loop of
`ParameterizedIterableTask.execute`. -/
def paramGo {α : Type} [DecidableEq α] (strat : ErrorStrategy) (maxR : Nat)
    (beh : α → Nat → Except String Unit) :
    List α → ParamState α → ParamState α
  | [], s => s
  | p :: rest, s =>
    match attemptLoop strat beh p maxR 0 none s with
    | .halt s2 => s2
    | .next s2 => paramGo strat maxR beh rest s2

/-- Model of the `TaskResult` assembled by
`ParameterizedIterableTask._create_result`, with the `data` dict fields
(`errors`, `processed`, `total`) inlined as structure fields. -/
structure ParamTaskResult (α : Type) where
  status : TaskStatus
  error : Option String
  errors : List (α × String)
  processed : Nat
  total : Nat
deriving DecidableEq, Repr

/-- Model of `ParameterizedIterableTask._create_result`. -/
def create_result {α : Type} (s : ParamState α) (total : Nat) :
    ParamTaskResult α :=
  if s.errors.isEmpty then ⟨.completed, none, [], s.processed, total⟩
  else
    ⟨.failed,
     some ("Failed to process " ++ toString s.errors.length ++ " parameter(s)"),
     s.errors, s.processed, total⟩

/-- Model of `ParameterizedIterableTask.execute` with the default `on_error`:
process every parameter under the error strategy and assemble the result
(also on an early `stop` return, which uses the same state and total). -/
def paramExecute {α : Type} [DecidableEq α] (strat : ErrorStrategy)
    (maxR : Nat) (beh : α → Nat → Except String Unit) (params : List α) :
    ParamTaskResult α :=
  create_result (paramGo strat maxR beh params ⟨[], 0⟩) params.length

/-- Behaviour of a task whose `execute` returns a plain success. -/
def okBehavior : TaskBehavior := .plain (.ok TaskResult.success_result)

/-- Registry with `a` (no dependencies) and `b` (depends on `a`), both
always succeeding. -/
def regDup : List TaskSpec := [⟨"a", [], okBehavior⟩, ⟨"b", ["a"], okBehavior⟩]

/-- Task order in which `b` occurs both before and after its dependency. -/
def orderDup : List String := ["b", "a", "b"]

/-- Decidable statement that the named task exists and its dispatched
execution returns a successful result. -/
def taskSucceeds (reg : List TaskSpec) (n : String) : Bool :=
  match regGet reg n with
  | none => false
  | some t =>
    match dispatchExec n t.behavior with
    | .ok r => r.success
    | .error _ => false

/-- Registry in which `a` and `b` each depend on a task that is in the
registry's order but absent from it: used against the aggregation claim of
the order-consistency check. -/
def regMiss : List TaskSpec :=
  [⟨"a", ["m1"], okBehavior⟩, ⟨"b", ["m2"], okBehavior⟩]

/-- Parameter behaviour that raises `e1` on the first attempt, `e2` on the
second, and succeeds from the third on. -/
def behTwiceFail : String → Nat → Except String Unit := fun _ k =>
  if k = 0 then .error "e1" else if k = 1 then .error "e2" else .ok ()

/-- Parameter behaviour that raises `e` on the first attempt and succeeds
from the second on. -/
def behOnceFail : String → Nat → Except String Unit := fun _ k =>
  if k = 0 then .error "e" else .ok ()

/-- Dependency list of a registered task (empty for an unknown name; the
uses are guarded by registration hypotheses). -/
def depsOf (reg : List TaskSpec) (n : String) : List String :=
  match regGet reg n with
  | some t => t.depends_on
  | none => []

/-- Decidable statement that a task of `task_order` violates neither clause
of the order-consistency check: it is registered, and every dependency
appears in `task_order` at a strictly earlier (last-occurrence) position. -/
def cleanTask (reg : List TaskSpec) (order : List String) (n : String) : Bool :=
  match regGet reg n with
  | none => false
  | some t =>
    t.depends_on.all
      (fun d => order.contains d && decide (lastPos order d < lastPos order n))

/-- Statement that the list of names `c` is a cycle of the dependency graph
`g`: at least two entries, the first entry repeated as the last, and every
adjacent pair an edge (second element a dependency of the first, as recorded
in `g`). -/
def IsCycle (g : List (String × List String)) (c : List String) : Prop :=
  2 ≤ c.length ∧ c.head? = c.getLast? ∧
    List.Chain' (fun a b => b ∈ gnb g a) c

/-- Statement that the list `L` (most recently finished node first) is a
reverse topological sort of `g`: every node's dependencies occur strictly
later in the list. -/
def TopoFin (g : List (String × List String)) : List String → Prop
  | [] => True
  | u :: rest => (∀ v ∈ gnb g u, v ∈ rest) ∧ TopoFin g rest

/-- Invariant of the depth-first search of `_check_cyclic_dependencies`,
relating the recursion stack `path`, the `visited` set and a ghost list
`fin` of already fully-explored nodes: `visited` is exactly `path` plus
`fin`, `fin` is a reverse topological sort without duplicates, and no
finished node is still on the stack. -/
def VisInv (g : List (String × List String))
    (path visited fin : List String) : Prop :=
  (∀ x, x ∈ visited ↔ x ∈ path ∨ x ∈ fin) ∧ TopoFin g fin ∧
    fin.Nodup ∧ (∀ x ∈ fin, x ∉ path)

/-- Number of graph nodes not yet visited: the measure showing the fuel of
`hasCycleF` never runs out. -/
def unvisCount (g : List (String × List String)) (visited : List String) : Nat :=
  (((g.map Prod.fst).dedup).filter (fun x => !(visited.contains x))).length

/-- Registry with a single task that lists itself as a dependency. -/
def selfReg : List TaskSpec := [⟨"s", ["s"], okBehavior⟩]

/-- Behaviour of a task whose `execute` returns an explicit failure. -/
def failBehavior : TaskBehavior :=
  .plain (.ok (TaskResult.failure_result "boom"))

/-- Behaviour of a task whose `execute` raises an exception. -/
def raiseBehavior : TaskBehavior := .plain (.error "kaboom")

/-- C1, counterexample: a validated `task_order` in which every task's
`execute` succeeds, yet `TaskOrchestrator.execute` raises a
`DependencyError` instead of returning a COMPLETED `ExecutionResult`.  The
order `["b", "a", "b"]` passes validation because the position dict keeps
only the last occurrence of `b`, but at run time the first occurrence of
`b` is attempted before its dependency `a` has completed. -/
theorem C1_counterexample_duplicates :
    validateModel regDup orderDup = .ok () ∧
    (∀ n ∈ orderDup, taskSucceeds regDup n = true) ∧
    executeModel regDup orderDup = .error (.depsNotSatisfied "b") := by
  refine ⟨rfl, by decide, rfl⟩

/-- C9, counterexample: the defensive dependency re-check inside
`TaskOrchestrator.execute` is reachable for a validated `task_order`: with
the duplicate order `["b", "a", "b"]` validation succeeds but the run
raises the `DependencyError('... dependencies not satisfied')` of the
re-check branch. -/
theorem C9_counterexample_recheck_reached :
    validateModel regDup orderDup = .ok () ∧
    executeModel regDup orderDup = .error (.depsNotSatisfied "b") :=
  ⟨rfl, rfl⟩

/-- C3, counterexample: when the order-consistency check fails, the error
does not list the violations of every task in `task_order`: with both `a`
and `b` having a dependency absent from the order, the reported error lists
only the missing dependency `m1` of the first offending task `a`, not the
missing dependency `m2` of `b`. -/
theorem C3_counterexample_first_offender_only :
    validateModel regMiss ["a", "b"] = .error (.missingDeps "a" ["m1"]) ∧
    (regGet regMiss "b").map TaskSpec.depends_on = some ["m2"] ∧
    "m2" ∉ ["a", "b"] ∧ "m2" ∉ ["m1"] := by
  refine ⟨rfl, rfl, by decide, by decide⟩

/-- C5, counterexample: a `ResumeIterator` with save interval 2, run to
completion over 3 items and no prior checkpoint, leaves a final checkpoint
with `processed_items = 2` (not `M = 3`) and `last_processed_id = "2"` (not
the last item's id `"3"`): no save fires on the final step because 3 is not
a multiple of the save interval. -/
theorem C5_counterexample_final_checkpoint :
    (resumeRun ["1", "2", "3"] id "tsk" 2 none).1 = ["1", "2", "3"] ∧
    (resumeRun ["1", "2", "3"] id "tsk" 2 none).2 =
      some ⟨"tsk", .in_progress, some 3, 2, some "2"⟩ ∧
    (2 : Nat) ≠ (["1", "2", "3"] : List String).length ∧
    some "2" ≠ some "3" := by
  refine ⟨rfl, rfl, by decide, by decide⟩

/-- C6, evaluation at the failing input: under policy `retry` with
`max_retries = 2`, a single parameter whose attempts raise `e1`, then `e2`,
then succeed is counted processed, no parameter ultimately failed, and yet
the task result is FAILED: the success path removes the recorded error
tuple by exact value, the tuple stored for attempt 0 (`e1`) no longer
matches the last failure (`e2`), the `list.remove` `ValueError` is
swallowed by the `except` clause, and the stale `e1` entry keeps the result
unsuccessful — contradicting both the claim and the code's own comment that
a success after a retry leaves no error recorded.  The final conjunct
checks the claim's own scenario (one failure, identical message, then
success) does produce a successful result. -/
theorem C6_retry_success_still_failed :
    paramExecute .retry 2 behTwiceFail ["p"] =
      ⟨.failed, some "Failed to process 1 parameter(s)", [("p", "e1")], 1, 1⟩ ∧
    behTwiceFail "p" 2 = .ok () ∧
    (paramExecute .retry 2 behTwiceFail ["p"]).processed =
      (["p"] : List String).length ∧
    paramExecute .retry 2 behOnceFail ["p"] = ⟨.completed, none, [], 1, 1⟩ := by
  refine ⟨rfl, rfl, rfl, rfl⟩

/-- C7, counterexample: under policy `retry` with `max_retries = 1`, a
parameter whose two attempts raise `e1` then `e2` ultimately fails with
final (last-attempt) message `e2`, but the aggregate error list records the
first attempt's message `e1`: the error entry is appended only on attempt 0
and never updated by later retries. -/
theorem C7_counterexample_first_message_kept :
    (paramExecute .retry 1 behTwiceFail ["p"]).errors = [("p", "e1")] ∧
    behTwiceFail "p" 1 = .error "e2" ∧ ("e1" : String) ≠ "e2" := by
  refine ⟨rfl, rfl, by decide⟩

/-- C10: an `IterableTask` whose `get_items` yields an empty sequence is
dispatched by the orchestrator to `_execute_iterable_task`, which returns
`TaskResult.success_result()` (a COMPLETED success) without consulting the
task's `execute` at all — the outcome `b` of `execute` is universally
quantified and never examined — and the task loop records that success and
continues with the task marked completed. -/
theorem C10_empty_iterable_success (reg : List TaskSpec) (n : String)
    (t : TaskSpec) (b : Except String TaskResult) (rest : List String)
    (s : RunState) (hreg : regGet reg n = some t)
    (hbeh : t.behavior = .iterable [] b)
    (hdeps : t.depends_on.all (fun d => s.completed.contains d) = true) :
    dispatchExec n t.behavior = .ok TaskResult.success_result ∧
    TaskResult.success_result.status = .completed ∧
    runLoop reg (n :: rest) s =
      runLoop reg rest ⟨s.completed ++ [n],
        dictInsert s.results n TaskResult.success_result,
        dictInsert s.ctxResults n TaskResult.success_result⟩ := by
  refine ⟨by rw [hbeh]; rfl, rfl, ?_⟩
  simp only [runLoop, hreg, hbeh, hdeps]
  rfl

/-- C10, witness: the theorem instantiated with a concrete registry holding
one empty-itemed iterable task whose `execute` would raise. -/
theorem C10_empty_iterable_success_witness :
    dispatchExec "it" (TaskSpec.behavior ⟨"it", [], .iterable [] (.error "never")⟩) =
      .ok TaskResult.success_result ∧
    TaskResult.success_result.status = .completed ∧
    runLoop [⟨"it", [], .iterable [] (.error "never")⟩] ["it"] ⟨[], [], []⟩ =
      runLoop [⟨"it", [], .iterable [] (.error "never")⟩] []
        ⟨[] ++ ["it"],
         dictInsert [] "it" TaskResult.success_result,
         dictInsert [] "it" TaskResult.success_result⟩ :=
  C10_empty_iterable_success [⟨"it", [], .iterable [] (.error "never")⟩] "it"
    ⟨"it", [], .iterable [] (.error "never")⟩ (.error "never") [] ⟨[], [], []⟩
    rfl rfl rfl

/-- Exhausting the iterator yields exactly the remaining suffix it was
started on, whatever the store does. -/
theorem runResume_fst {α : Type} (items : List α) (idex : α → String)
    (tname : String) (S start : Nat) :
    ∀ (rem : List α) (cur : Nat) (store : Option TaskProgress),
      (runResume items idex tname S start rem cur store).1 = rem := by
  intro rem
  induction rem with
  | nil => intro cur store; rfl
  | cons item rest ih =>
    intro cur store
    simp only [runResume]
    exact congrArg (item :: ·) (ih _ _)

/-- A full pass over a `ResumeIterator` yields the suffix of the items from
the start index computed at construction. -/
theorem resumeRun_fst {α : Type} (items : List α) (idex : α → String)
    (tname : String) (S : Nat) (progress : Option TaskProgress) :
    (resumeRun items idex tname S progress).1 =
      items.drop (findStartIndex items idex progress) := by
  unfold resumeRun
  exact runResume_fst items idex tname S _ _ _ _

/-- C4: yields of a `ResumeIterator` over `items`.  With no checkpoint, or a
checkpoint without a `last_processed_id`, a full pass yields all of `items`
in order; with a recorded id matching item `N` (first match), it yields
exactly items `N+1 ..` to the end; with a recorded id matching no item, it
yields all of `items` from the start.  `resumeRun` is a total function, so a
stale or foreign checkpoint never makes the iterator error. -/
theorem C4_resume_yield_semantics {α : Type} (items : List α)
    (idex : α → String) (tname : String) (S : Nat)
    (progress : Option TaskProgress) :
    ((progress = none ∨ ∃ p, progress = some p ∧ p.last_processed_id = none) →
      (resumeRun items idex tname S progress).1 = items) ∧
    (∀ p lastId N, progress = some p → p.last_processed_id = some lastId →
      items.findIdx? (fun it => idex it == lastId) = some N →
      (resumeRun items idex tname S progress).1 = items.drop (N + 1)) ∧
    (∀ p lastId, progress = some p → p.last_processed_id = some lastId →
      items.findIdx? (fun it => idex it == lastId) = none →
      (resumeRun items idex tname S progress).1 = items) := by
  refine ⟨?_, ?_, ?_⟩
  · rintro (hnone | ⟨p, hp, hlast⟩)
    · rw [resumeRun_fst, hnone]
      rfl
    · rw [resumeRun_fst, hp]
      simp [findStartIndex, hlast]
  · intro p lastId N hp hlast hfind
    rw [resumeRun_fst, hp]
    simp [findStartIndex, hlast, hfind]
  · intro p lastId hp hlast hfind
    rw [resumeRun_fst, hp]
    simp [findStartIndex, hlast, hfind]

/-- C4, witness: the theorem applied to three items with a checkpoint whose
recorded id is the second item's: the pass yields exactly the third item. -/
theorem C4_resume_yield_semantics_witness :
    (resumeRun ["1", "2", "3"] id "tsk" 10
      (some ⟨"tsk", .in_progress, some 3, 2, some "2"⟩)).1 =
      (["1", "2", "3"] : List String).drop 2 :=
  (C4_resume_yield_semantics ["1", "2", "3"] id "tsk" 10
      (some ⟨"tsk", .in_progress, some 3, 2, some "2"⟩)).2.1
    ⟨"tsk", .in_progress, some 3, 2, some "2"⟩ "2" 1 rfl rfl rfl

/-- Largest multiple bound: a multiple of `S` that is at most `M` is at most
`S * (M / S)`. -/
theorem mult_le_best (S M m : Nat) (hS : 0 < S) (hm : m % S = 0)
    (hle : m ≤ M) : m ≤ S * (M / S) := by
  obtain ⟨q, hq⟩ := Nat.dvd_of_mod_eq_zero hm
  subst hq
  have hq2 : q ≤ M / S := (Nat.le_div_iff_mul_le hS).mpr (by rw [Nat.mul_comm]; exact hle)
  exact Nat.mul_le_mul_left S hq2

/-- Closed form of the checkpoint left in the store by running the iterator
from position `cur` (with start index 0) to exhaustion: if the largest
multiple of the save interval not exceeding the item count has already been
passed, the store is untouched; otherwise the final save is the one at that
largest multiple. -/
theorem runResume_snd_formula {α : Type} (items : List α) (idex : α → String)
    (tname : String) (S : Nat) (hS : 0 < S) :
    ∀ (k cur : Nat) (store : Option TaskProgress),
      items.length - cur = k → cur ≤ items.length →
      (runResume items idex tname S 0 (items.drop cur) cur store).2 =
        (if S * (items.length / S) ≤ cur then store
         else (items.get? (S * (items.length / S) - 1)).map
           (fun it => saveProgressRec items idex tname
             (S * (items.length / S) - 1) it)) := by
  intro k
  induction k with
  | zero =>
    intro cur store hk hle
    have hcur : cur = items.length := by omega
    subst hcur
    have hBM : S * (items.length / S) ≤ items.length := by
      rw [Nat.mul_comm]
      exact Nat.div_mul_le_self _ _
    simp [List.drop_length, runResume, hBM]
  | succ k ih =>
    intro cur store hk hle
    have hcur : cur < items.length := by omega
    rw [List.drop_eq_get_cons hcur]
    simp only [runResume, Nat.add_sub_cancel, Nat.sub_zero]
    have hget : items.get? cur = some (items.get ⟨cur, hcur⟩) :=
      List.get?_eq_get hcur
    rw [hget]
    rw [ih (cur + 1) _ (by omega) (by omega)]
    have hBM : S * (items.length / S) ≤ items.length := by
      rw [Nat.mul_comm]
      exact Nat.div_mul_le_self _ _
    have hBmod : S * (items.length / S) % S = 0 := Nat.mul_mod_right _ _
    by_cases hc : S * (items.length / S) ≤ cur
    · have hne : ¬((cur + 1) % S = 0) := by
        intro h0
        have := mult_le_best S items.length (cur + 1) hS h0 (by omega)
        omega
      have hc1 : S * (items.length / S) ≤ cur + 1 := by omega
      simp [hne, hc, hc1]
    · by_cases hc2 : S * (items.length / S) ≤ cur + 1
      · have hBeq : S * (items.length / S) = cur + 1 := by omega
        have hm : (cur + 1) % S = 0 := by
          rw [← hBeq]
          exact hBmod
        have hidx : S * (items.length / S) - 1 = cur := by omega
        simp [hm, hc, hc2, hidx, List.getElem?_eq_getElem hcur,
          List.get_eq_getElem]
      · simp [hc, hc2]

/-- C5, amended: a `ResumeIterator` with save interval `S > 0`, run to
completion over `M = items.length` items with no prior checkpoint, leaves
the store unchanged (no checkpoint at all) when `M < S`; otherwise the final
checkpoint is the one saved at the largest multiple `B = S * (M / S)` of the
save interval, i.e. `processed_items = B` and `last_processed_id` the id of
item `B - 1`.  Only when `S` divides `M` does this equal the claimed final
checkpoint with `processed_items = M` and the last item's id. -/
theorem C5_final_checkpoint_formula {α : Type} (items : List α)
    (idex : α → String) (tname : String) (S : Nat) (hS : 0 < S)
    (hne : items ≠ []) :
    ((resumeRun items idex tname S none).2 =
      (if S * (items.length / S) = 0 then none
       else (items.get? (S * (items.length / S) - 1)).map
         (fun it => saveProgressRec items idex tname
           (S * (items.length / S) - 1) it))) ∧
    (items.length < S → (resumeRun items idex tname S none).2 = none) ∧
    (S ∣ items.length → ∃ it, items.getLast? = some it ∧
      (resumeRun items idex tname S none).2 =
        some ⟨tname, .in_progress, some items.length, items.length,
          some (idex it)⟩) := by
  have hmain : (resumeRun items idex tname S none).2 =
      (if S * (items.length / S) ≤ 0 then none
       else (items.get? (S * (items.length / S) - 1)).map
         (fun it => saveProgressRec items idex tname
           (S * (items.length / S) - 1) it)) := by
    have h0 := runResume_snd_formula items idex tname S hS
      items.length 0 none (by omega) (by omega)
    rw [List.drop_zero] at h0
    exact h0
  have hlen : 0 < items.length := List.length_pos.mpr hne
  refine ⟨?_, ?_, ?_⟩
  · rw [hmain]
    rcases Nat.eq_zero_or_pos (S * (items.length / S)) with h | h
    · simp [h]
    · rw [if_neg (by omega), if_neg (by omega)]
  · intro hlt
    have hdiv : items.length / S = 0 := Nat.div_eq_of_lt hlt
    rw [hmain, hdiv]
    simp
  · intro hdvd
    have hBeq : S * (items.length / S) = items.length := Nat.mul_div_cancel' hdvd
    have hidx : items.length - 1 < items.length := by omega
    refine ⟨items.get ⟨items.length - 1, hidx⟩, ?_, ?_⟩
    · rw [List.getLast?_eq_get? , List.get?_eq_get hidx]
    · rw [hmain, hBeq, if_neg (by omega), List.get?_eq_get hidx]
      simp [saveProgressRec]
      omega

/-- C5, witness for the amended formula: four items with save interval 2
(which divides the count) leave a final checkpoint with all four items
processed and the last item's id recorded. -/
theorem C5_final_checkpoint_formula_witness :
    ∃ it, (["1", "2", "3", "4"] : List String).getLast? = some it ∧
      (resumeRun ["1", "2", "3", "4"] id "tsk" 2 none).2 =
        some ⟨"tsk", .in_progress, some 4, 4, some (id it)⟩ :=
  (C5_final_checkpoint_formula ["1", "2", "3", "4"] id "tsk" 2 (by decide)
    (by decide)).2.2 ⟨2, rfl⟩

/-- Single unfolding of the per-parameter loop (applied once by `rw`, where
unfolding by `simp` would recurse). -/
theorem attemptLoop_unfold {α : Type} [DecidableEq α] (strat : ErrorStrategy)
    (beh : α → Nat → Except String Unit) (p : α) (left retries : Nat)
    (pe : Option (α × String)) (s : ParamState α) :
    attemptLoop strat beh p left retries pe s =
      match beh p retries with
      | .ok _ =>
        let s1 : ParamState α := ⟨s.errors, s.processed + 1⟩
        match pe with
        | none => .next s1
        | some t =>
          if t ∈ s1.errors then .next ⟨removeFirst s1.errors t, s1.processed⟩
          else
            let s2 : ParamState α :=
              if retries = 0 then ⟨s1.errors ++ [(p, removeErrMsg)], s1.processed⟩
              else s1
            match strat with
            | .stop => .halt s2
            | .cont => .next s2
            | .retry => .next s2
      | .error m =>
        let s1 : ParamState α :=
          if retries = 0 then ⟨s.errors ++ [(p, m)], s.processed⟩ else s
        match strat with
        | .stop => .halt s1
        | .cont => .next s1
        | .retry =>
          match left with
          | l + 1 => attemptLoop strat beh p l (retries + 1) (some (p, m)) s1
          | 0 => .next s1 :=
  attemptLoop.eq_1 strat beh p left retries pe s

/-- Removing an element from the error list only drops entries. -/
theorem removeFirst_subset {α : Type} [DecidableEq α]
    (l : List (α × String)) (x pr : α × String)
    (h : pr ∈ removeFirst l x) : pr ∈ l := by
  induction l with
  | nil => simpa [removeFirst] using h
  | cons a rest ih =>
    by_cases hax : a = x
    · simp only [removeFirst, if_pos hax] at h
      exact List.mem_cons_of_mem _ h
    · simp only [removeFirst, if_neg hax, List.mem_cons] at h
      rcases h with h | h
      · exact h ▸ List.mem_cons_self _ _
      · exact List.mem_cons_of_mem _ (ih h)

/-- An entry different from the removed one survives the removal. -/
theorem removeFirst_mem_of_ne {α : Type} [DecidableEq α]
    (l : List (α × String)) (x pr : α × String)
    (h : pr ∈ l) (hne : pr ≠ x) : pr ∈ removeFirst l x := by
  induction l with
  | nil => simpa [removeFirst] using h
  | cons a rest ih =>
    by_cases hax : a = x
    · simp only [removeFirst, if_pos hax]
      rcases List.mem_cons.mp h with h | h
      · exact absurd (h ▸ hax) hne
      · exact h
    · simp only [removeFirst, if_neg hax, List.mem_cons]
      rcases List.mem_cons.mp h with h | h
      · exact Or.inl h
      · exact Or.inr (ih h)

/-- Every error entry the per-parameter loop can ever record carries the
message of the parameter's FIRST attempt: entries are appended only when
`retries == 0`, with the message of attempt 0, and removals only drop
entries.  The `pe` argument always carries the current parameter and is
`none` on attempt 0, which makes the `retries == 0` append in the swallowed
`ValueError` branch unreachable. -/
theorem attemptLoop_errors_first {α : Type} [DecidableEq α]
    (strat : ErrorStrategy) (beh : α → Nat → Except String Unit) (p : α) :
    ∀ (left retries : Nat) (pe : Option (α × String)) (s : ParamState α),
      (∀ pr ∈ s.errors, beh pr.1 0 = .error pr.2) →
      (∀ q m, pe = some (q, m) → q = p) →
      (retries = 0 → pe = none) →
      ∀ pr ∈ (match attemptLoop strat beh p left retries pe s with
              | .next s2 => s2
              | .halt s2 => s2).errors, beh pr.1 0 = .error pr.2 := by
  intro left
  induction left with
  | zero =>
    intro retries pe s hinv hpe hr0 pr
    simp only [attemptLoop]
    cases hbeh : beh p retries with
    | ok u =>
      cases pe with
      | none => exact fun hm => hinv pr hm
      | some t =>
        by_cases ht : t ∈ s.errors
        · simp only [if_pos ht]
          exact fun hm => hinv pr (removeFirst_subset _ _ _ hm)
        · rcases Nat.eq_zero_or_pos retries with hz | hpos
          · exact absurd (hr0 hz) (by simp)
          · simp only [if_neg ht, if_neg (by omega : ¬retries = 0)]
            cases strat <;> exact fun hm => hinv pr hm
    | error m =>
      rcases Nat.eq_zero_or_pos retries with hz | hpos
      · subst hz
        simp only [if_pos rfl]
        cases strat
        · intro hm
          rcases List.mem_append.mp hm with hm | hm
          · exact hinv pr hm
          · simp only [List.mem_singleton] at hm
            subst hm
            exact hbeh
        · intro hm
          rcases List.mem_append.mp hm with hm | hm
          · exact hinv pr hm
          · simp only [List.mem_singleton] at hm
            subst hm
            exact hbeh
        · intro hm
          rcases List.mem_append.mp hm with hm | hm
          · exact hinv pr hm
          · simp only [List.mem_singleton] at hm
            subst hm
            exact hbeh
      · simp only [if_neg (by omega : ¬retries = 0)]
        cases strat <;> exact fun hm => hinv pr hm
  | succ l ih =>
    intro retries pe s hinv hpe hr0 pr
    rw [attemptLoop_unfold]
    cases hbeh : beh p retries with
    | ok u =>
      cases pe with
      | none => exact fun hm => hinv pr hm
      | some t =>
        by_cases ht : t ∈ s.errors
        · simp only [if_pos ht]
          exact fun hm => hinv pr (removeFirst_subset _ _ _ hm)
        · rcases Nat.eq_zero_or_pos retries with hz | hpos
          · exact absurd (hr0 hz) (by simp)
          · simp only [if_neg ht, if_neg (by omega : ¬retries = 0)]
            cases strat <;> exact fun hm => hinv pr hm
    | error m =>
      have hinv1 : ∀ pr2 ∈ (if retries = 0 then
          (⟨s.errors ++ [(p, m)], s.processed⟩ : ParamState α) else s).errors,
          beh pr2.1 0 = .error pr2.2 := by
        intro pr2 hm2
        rcases Nat.eq_zero_or_pos retries with hz | hpos
        · subst hz
          simp only [if_pos rfl] at hm2
          rcases List.mem_append.mp hm2 with hm2 | hm2
          · exact hinv pr2 hm2
          · simp only [List.mem_singleton] at hm2
            subst hm2
            exact hbeh
        · rw [if_neg (by omega : ¬retries = 0)] at hm2
          exact hinv pr2 hm2
      cases strat
      · exact hinv1 pr
      · exact hinv1 pr
      · exact ih (retries + 1) (some (p, m)) _ hinv1
          (by intro q m2 h2; cases h2; rfl) (by omega) pr

/-- The first-attempt property of error entries survives the whole
parameter loop. -/
theorem paramGo_errors_first {α : Type} [DecidableEq α] (strat : ErrorStrategy)
    (maxR : Nat) (beh : α → Nat → Except String Unit) :
    ∀ (params : List α) (s : ParamState α),
      (∀ pr ∈ s.errors, beh pr.1 0 = .error pr.2) →
      ∀ pr ∈ (paramGo strat maxR beh params s).errors,
        beh pr.1 0 = .error pr.2 := by
  intro params
  induction params with
  | nil => intro s hinv pr hm; exact hinv pr hm
  | cons p rest ih =>
    intro s hinv pr hm
    have hstep := attemptLoop_errors_first strat beh p maxR 0 none s hinv
      (by intro q m h; cases h) (fun _ => rfl)
    simp only [paramGo] at hm
    cases hcase : attemptLoop strat beh p maxR 0 none s with
    | halt s2 =>
      rw [hcase] at hm
      rw [hcase] at hstep
      exact hstep pr hm
    | next s2 =>
      rw [hcase] at hm
      rw [hcase] at hstep
      exact ih s2 hstep pr hm

/-- Under a non-`stop` strategy the per-parameter loop never aborts the
whole parameter list. -/
theorem attemptLoop_no_halt {α : Type} [DecidableEq α] (strat : ErrorStrategy)
    (beh : α → Nat → Except String Unit) (p : α) (hs : strat ≠ .stop) :
    ∀ (left retries : Nat) (pe : Option (α × String)) (s : ParamState α),
      ∃ s2, attemptLoop strat beh p left retries pe s = .next s2 := by
  intro left
  induction left with
  | zero =>
    intro retries pe s
    rw [attemptLoop_unfold]
    cases hbeh : beh p retries with
    | ok u =>
      cases pe with
      | none => exact ⟨_, rfl⟩
      | some t =>
        dsimp only
        by_cases ht : t ∈ s.errors
        · rw [if_pos ht]
          exact ⟨_, rfl⟩
        · rw [if_neg ht]
          cases strat with
          | stop => exact absurd rfl hs
          | cont => exact ⟨_, rfl⟩
          | retry => exact ⟨_, rfl⟩
    | error m =>
      dsimp only
      cases strat with
      | stop => exact absurd rfl hs
      | cont => exact ⟨_, rfl⟩
      | retry => exact ⟨_, rfl⟩
  | succ l ih =>
    intro retries pe s
    rw [attemptLoop_unfold]
    cases hbeh : beh p retries with
    | ok u =>
      cases pe with
      | none => exact ⟨_, rfl⟩
      | some t =>
        dsimp only
        by_cases ht : t ∈ s.errors
        · rw [if_pos ht]
          exact ⟨_, rfl⟩
        · rw [if_neg ht]
          cases strat with
          | stop => exact absurd rfl hs
          | cont => exact ⟨_, rfl⟩
          | retry => exact ⟨_, rfl⟩
    | error m =>
      dsimp only
      cases strat with
      | stop => exact absurd rfl hs
      | cont => exact ⟨_, rfl⟩
      | retry => exact ih (retries + 1) (some (p, m)) _

/-- Under `retry`, once past the first attempt, a run of failing attempts
leaves the state untouched: the error was already recorded on attempt 0. -/
theorem attemptLoop_allfail_tail {α : Type} [DecidableEq α]
    (beh : α → Nat → Except String Unit) (p : α) :
    ∀ (left retries : Nat) (pe : Option (α × String)) (s : ParamState α),
      0 < retries →
      (∀ j, retries ≤ j → j ≤ retries + left → ∃ m, beh p j = .error m) →
      attemptLoop .retry beh p left retries pe s = .next s := by
  intro left
  induction left with
  | zero =>
    intro retries pe s hpos hfail
    obtain ⟨m, hm⟩ := hfail retries le_rfl (by omega)
    rw [attemptLoop_unfold, hm]
    dsimp only
    rw [if_neg (by omega : ¬retries = 0)]
  | succ l ih =>
    intro retries pe s hpos hfail
    obtain ⟨m, hm⟩ := hfail retries le_rfl (by omega)
    rw [attemptLoop_unfold, hm]
    dsimp only
    rw [if_neg (by omega : ¬retries = 0)]
    exact ih (retries + 1) (some (p, m)) s (by omega)
      (fun j h1 h2 => hfail j (by omega) (by omega))

/-- Under `retry` with every allowed attempt failing, the loop for a
parameter appends exactly one error entry carrying the first attempt's
message and moves on. -/
theorem attemptLoop_allfail_retry {α : Type} [DecidableEq α]
    (beh : α → Nat → Except String Unit) (p : α) (maxR : Nat)
    (s : ParamState α)
    (hfail : ∀ j, j ≤ maxR → ∃ m, beh p j = .error m) :
    ∃ m0, beh p 0 = .error m0 ∧
      attemptLoop .retry beh p maxR 0 none s =
        .next ⟨s.errors ++ [(p, m0)], s.processed⟩ := by
  obtain ⟨m0, hm0⟩ := hfail 0 (Nat.zero_le _)
  refine ⟨m0, hm0, ?_⟩
  rw [attemptLoop_unfold, hm0]
  dsimp only
  rw [if_pos rfl]
  cases maxR with
  | zero => rfl
  | succ l =>
    exact attemptLoop_allfail_tail beh p l 1 (some (p, m0)) _ (by omega)
      (fun j h1 h2 => hfail j (by omega))

/-- Under `continue`, a failing first attempt appends exactly one error
entry and moves on. -/
theorem attemptLoop_cont_fail {α : Type} [DecidableEq α]
    (beh : α → Nat → Except String Unit) (p : α) (left : Nat)
    (s : ParamState α) (m0 : String) (hm0 : beh p 0 = .error m0) :
    attemptLoop .cont beh p left 0 none s =
      .next ⟨s.errors ++ [(p, m0)], s.processed⟩ := by
  rw [attemptLoop_unfold, hm0]
  dsimp only
  rw [if_pos rfl]

/-- The per-parameter loop for `p` touches only entries whose parameter is
`p`: entries of other parameters survive it. -/
theorem attemptLoop_preserves_other {α : Type} [DecidableEq α]
    (strat : ErrorStrategy) (beh : α → Nat → Except String Unit) (p : α) :
    ∀ (left retries : Nat) (pe : Option (α × String)) (s : ParamState α)
      (x : α × String),
      x ∈ s.errors → x.1 ≠ p →
      (∀ q m, pe = some (q, m) → q = p) →
      x ∈ (match attemptLoop strat beh p left retries pe s with
           | .next s2 => s2
           | .halt s2 => s2).errors := by
  intro left
  induction left with
  | zero =>
    intro retries pe s x hx hne hpe
    rw [attemptLoop_unfold]
    cases hbeh : beh p retries with
    | ok u =>
      cases pe with
      | none => exact hx
      | some t =>
        have htp : t.1 = p := hpe t.1 t.2 rfl
        dsimp only
        by_cases ht : t ∈ s.errors
        · rw [if_pos ht]
          exact removeFirst_mem_of_ne _ _ _ hx
            (by intro h; exact hne (h ▸ htp))
        · rw [if_neg ht]
          rcases Nat.eq_zero_or_pos retries with hz | hpos
          · subst hz
            rw [if_pos rfl]
            cases strat <;> exact List.mem_append_left _ hx
          · rw [if_neg (by omega : ¬retries = 0)]
            cases strat <;> exact hx
    | error m =>
      dsimp only
      rcases Nat.eq_zero_or_pos retries with hz | hpos
      · subst hz
        rw [if_pos rfl]
        cases strat <;> exact List.mem_append_left _ hx
      · rw [if_neg (by omega : ¬retries = 0)]
        cases strat <;> exact hx
  | succ l ih =>
    intro retries pe s x hx hne hpe
    rw [attemptLoop_unfold]
    cases hbeh : beh p retries with
    | ok u =>
      cases pe with
      | none => exact hx
      | some t =>
        have htp : t.1 = p := hpe t.1 t.2 rfl
        dsimp only
        by_cases ht : t ∈ s.errors
        · rw [if_pos ht]
          exact removeFirst_mem_of_ne _ _ _ hx
            (by intro h; exact hne (h ▸ htp))
        · rw [if_neg ht]
          rcases Nat.eq_zero_or_pos retries with hz | hpos
          · subst hz
            rw [if_pos rfl]
            cases strat <;> exact List.mem_append_left _ hx
          · rw [if_neg (by omega : ¬retries = 0)]
            cases strat <;> exact hx
    | error m =>
      dsimp only
      rcases Nat.eq_zero_or_pos retries with hz | hpos
      · subst hz
        rw [if_pos rfl]
        cases strat with
        | stop => exact List.mem_append_left _ hx
        | cont => exact List.mem_append_left _ hx
        | retry =>
          exact ih 1 (some (p, m)) _ x (List.mem_append_left _ hx) hne
            (by intro q m2 h2; cases h2; rfl)
      · rw [if_neg (by omega : ¬retries = 0)]
        cases strat with
        | stop => exact hx
        | cont => exact hx
        | retry =>
          exact ih (retries + 1) (some (p, m)) _ x hx hne
            (by intro q m2 h2; cases h2; rfl)

/-- Entries of parameters not occurring in the remaining parameter list
survive the rest of the run. -/
theorem paramGo_preserves_other {α : Type} [DecidableEq α]
    (strat : ErrorStrategy) (maxR : Nat)
    (beh : α → Nat → Except String Unit) :
    ∀ (params : List α) (s : ParamState α) (x : α × String),
      x ∈ s.errors → x.1 ∉ params →
      x ∈ (paramGo strat maxR beh params s).errors := by
  intro params
  induction params with
  | nil => intro s x hx _; exact hx
  | cons p rest ih =>
    intro s x hx hnp
    have hnep : x.1 ≠ p := fun h => hnp (h ▸ List.mem_cons_self _ _)
    have hstep := attemptLoop_preserves_other strat beh p maxR 0 none s x hx
      hnep (by intro q m h; cases h)
    simp only [paramGo]
    cases hcase : attemptLoop strat beh p maxR 0 none s with
    | halt s2 =>
      rw [hcase] at hstep
      exact hstep
    | next s2 =>
      rw [hcase] at hstep
      exact ih s2 x hstep (fun h => hnp (List.mem_cons_of_mem _ h))

/-- C7, amended: every entry of the aggregate error list carries the message
of the parameter's FIRST failing attempt (never a later retry's message);
and, under the non-aborting strategies (`continue`, `retry`), a parameter
occurring once in the list all of whose allowed attempts fail does get such
an entry. -/
theorem C7_recorded_error_is_first_attempt {α : Type} [DecidableEq α]
    (strat : ErrorStrategy) (maxR : Nat)
    (beh : α → Nat → Except String Unit) (params : List α) :
    (∀ pr ∈ (paramExecute strat maxR beh params).errors,
      beh pr.1 0 = .error pr.2) ∧
    ((strat = .cont ∨ strat = .retry) →
      ∀ l1 (p : α) l2, params = l1 ++ p :: l2 → p ∉ l1 → p ∉ l2 →
      (∀ j, j ≤ (match strat with | .retry => maxR | _ => 0) →
        ∃ m, beh p j = .error m) →
      ∃ m0, beh p 0 = .error m0 ∧
        (p, m0) ∈ (paramExecute strat maxR beh params).errors) := by
  constructor
  · intro pr hm
    have hgo := paramGo_errors_first strat maxR beh params ⟨[], 0⟩
      (by intro pr2 h2; cases h2)
    unfold paramExecute create_result at hm
    by_cases hemp : (paramGo strat maxR beh params ⟨[], 0⟩).errors.isEmpty
    · rw [if_pos hemp] at hm
      cases hm
    · rw [if_neg hemp] at hm
      exact hgo pr hm
  · intro hstrat l1 p l2 hsplit hnl1 hnl2 hfail
    have hs : strat ≠ .stop := by
      rcases hstrat with h | h <;> (subst h; intro h2; cases h2)
    subst hsplit
    -- run the prefix l1
    suffices hsuf : ∃ m0, beh p 0 = .error m0 ∧
        ∀ s : ParamState α,
          (p, m0) ∈ (paramGo strat maxR beh (l1 ++ p :: l2) s).errors by
      obtain ⟨m0, hm0, hall⟩ := hsuf
      refine ⟨m0, hm0, ?_⟩
      have hin := hall ⟨[], 0⟩
      unfold paramExecute create_result
      have hemp : ¬(paramGo strat maxR beh (l1 ++ p :: l2) ⟨[], 0⟩).errors.isEmpty := by
        intro h
        rw [List.isEmpty_iff_eq_nil] at h
        rw [h] at hin
        cases hin
      rw [if_neg hemp]
      exact hin
    -- first-attempt message
    have hm0ex : ∃ m0, beh p 0 = .error m0 := by
      rcases hstrat with h | h <;>
        (subst h; exact hfail 0 (by omega))
    obtain ⟨m0, hm0⟩ := hm0ex
    refine ⟨m0, hm0, ?_⟩
    induction l1 with
    | nil =>
      intro s
      simp only [List.nil_append, paramGo]
      have hstep : attemptLoop strat beh p maxR 0 none s =
          .next ⟨s.errors ++ [(p, m0)], s.processed⟩ := by
        rcases hstrat with h | h
        · subst h
          exact attemptLoop_cont_fail beh p maxR s m0 hm0
        · subst h
          obtain ⟨m1, hm1, heq⟩ := attemptLoop_allfail_retry beh p maxR s hfail
          rw [hm0] at hm1
          cases hm1
          exact heq
      rw [hstep]
      exact paramGo_preserves_other strat maxR beh l2 _ (p, m0)
        (List.mem_append_right _ (List.mem_singleton.mpr rfl)) hnl2
    | cons q l1t ih1 =>
      intro s
      have hq : p ≠ q := fun h => hnl1 (h ▸ List.mem_cons_self _ _)
      simp only [List.cons_append, paramGo]
      obtain ⟨s2, hs2⟩ := attemptLoop_no_halt strat beh q hs maxR 0 none s
      rw [hs2]
      exact ih1 (fun h => hnl1 (List.mem_cons_of_mem _ h)) s2

/-- C7, witness: under `retry(max_retries = 1)` with attempts failing `e1`
then `e2`, the sole parameter's recorded entry carries the first attempt's
message. -/
theorem C7_recorded_error_is_first_attempt_witness :
    ∃ m0, behTwiceFail "p" 0 = .error m0 ∧
      ("p", m0) ∈ (paramExecute .retry 1 behTwiceFail ["p"]).errors :=
  (C7_recorded_error_is_first_attempt .retry 1 behTwiceFail ["p"]).2
    (Or.inr rfl) [] "p" [] rfl (by decide) (by decide)
    (by
      intro j hj
      interval_cases j
      · exact ⟨"e1", rfl⟩
      · exact ⟨"e2", rfl⟩)

/-- Inserting a fresh key into a Python dict appends it. -/
theorem dictInsert_fresh {β : Type} (m : List (String × β)) (k : String)
    (v : β) (h : k ∉ m.map Prod.fst) : dictInsert m k v = m ++ [(k, v)] := by
  unfold dictInsert
  rw [if_neg]
  intro hany
  obtain ⟨p, hp, he⟩ := List.any_eq_true.mp hany
  exact h (List.mem_map.mpr ⟨p, hp, (by simpa using he)⟩)

/-- Looking a fresh key up after appending it finds the appended value. -/
theorem dictGet_fresh_append {β : Type} (m : List (String × β)) (k : String)
    (v : β) (h : k ∉ m.map Prod.fst) : dictGet (m ++ [(k, v)]) k = some v := by
  unfold dictGet
  rw [List.find?_append]
  have hnone : m.find? (fun p => p.1 == k) = none := by
    rw [List.find?_eq_none]
    intro p hp he
    exact h (List.mem_map.mpr ⟨p, hp, (by simpa using he)⟩)
  rw [hnone]
  simp

/-- Unpacking of a successful task: the name resolves and its dispatched
execution returns a success. -/
theorem taskSucceeds_spec (reg : List TaskSpec) (n : String)
    (h : taskSucceeds reg n = true) :
    ∃ t r, regGet reg n = some t ∧ dispatchExec n t.behavior = .ok r ∧
      r.success = true := by
  unfold taskSucceeds at h
  cases hreg : regGet reg n with
  | none => rw [hreg] at h; cases h
  | some t =>
    rw [hreg] at h
    dsimp only at h
    cases hexec : dispatchExec n t.behavior with
    | error m => rw [hexec] at h; cases h
    | ok r =>
      rw [hexec] at h
      exact ⟨t, r, rfl, hexec, h⟩

/-- The dependency-satisfaction test of the orchestrator is list
inclusion. -/
theorem all_contains_iff (deps completed : List String) :
    deps.all (fun d => completed.contains d) = true ↔
      ∀ d ∈ deps, d ∈ completed := by
  simp [List.all_eq_true, List.elem_iff]

/-- The recorded position of a member is a valid index. -/
theorem lastPos_lt_length (l : List String) (n : String) (h : n ∈ l) :
    lastPos l n < l.length := by
  induction l with
  | nil => cases h
  | cons a rest ih =>
    unfold lastPos
    by_cases hr : n ∈ rest
    · rw [if_pos hr]
      simpa using Nat.succ_lt_succ (ih hr)
    · rw [if_neg hr]
      rcases List.mem_cons.mp h with he | he
      · subst he
        rw [if_pos (by simp)]
        simp
      · exact absurd he hr

/-- The element at the recorded position is the looked-up name. -/
theorem lastPos_get (l : List String) (n : String) (h : n ∈ l) :
    l.get ⟨lastPos l n, lastPos_lt_length l n h⟩ = n := by
  induction l with
  | nil => cases h
  | cons a rest ih =>
    by_cases hr : n ∈ rest
    · have hL0 : lastPos (a :: rest) n =
          if n ∈ rest then lastPos rest n + 1
          else if (a == n) = true then 0 else lastPos rest n + 1 := rfl
      have hL : lastPos (a :: rest) n = lastPos rest n + 1 := by
        rw [hL0, if_pos hr]
      have hgoal := ih hr
      simp only [hL, List.get_cons_succ]
      exact hgoal
    · rcases List.mem_cons.mp h with he | he
      · subst he
        have hL0 : lastPos (n :: rest) n =
            if n ∈ rest then lastPos rest n + 1
            else if (n == n) = true then 0 else lastPos rest n + 1 := rfl
        have hL : lastPos (n :: rest) n = 0 := by
          rw [hL0, if_neg hr, if_pos (by simp)]
        simp only [hL]
        rfl
      · exact absurd he hr

/-- Without duplicate names, the recorded (last-occurrence) position of an
element is its unique index. -/
theorem lastPos_nodup (l : List String) (hnd : l.Nodup) :
    ∀ (i : Nat) (hi : i < l.length), lastPos l (l.get ⟨i, hi⟩) = i := by
  induction l with
  | nil => intro i hi; cases hi
  | cons a rest ih =>
    intro i hi
    cases i with
    | zero =>
      have ha : a ∉ rest := (List.nodup_cons.mp hnd).1
      have hL0 : lastPos (a :: rest) a =
          if a ∈ rest then lastPos rest a + 1
          else if (a == a) = true then 0 else lastPos rest a + 1 := rfl
      simp only [List.get]
      rw [hL0, if_neg ha, if_pos (by simp)]
    | succ j =>
      have hj : j < rest.length := by simpa using hi
      have hmem : rest.get ⟨j, hj⟩ ∈ rest := List.get_mem _ _ _
      have hL0 : lastPos (a :: rest) (rest.get ⟨j, hj⟩) =
          if rest.get ⟨j, hj⟩ ∈ rest then lastPos rest (rest.get ⟨j, hj⟩) + 1
          else if (a == rest.get ⟨j, hj⟩) = true then 0
          else lastPos rest (rest.get ⟨j, hj⟩) + 1 := rfl
      simp only [List.get]
      rw [hL0, if_pos hmem, ih (List.nodup_cons.mp hnd).2 j hj]

/-- Specification extracted from a successful run of the order-consistency
loop: every task of the processed list resolves, and each of its
dependencies occurs in `task_order` at a strictly earlier last-occurrence
position. -/
theorem checkDepsInOrderLoop_ok (reg : List TaskSpec) (order : List String) :
    ∀ (todo : List String),
      checkDepsInOrderLoop reg order todo = .ok () →
      ∀ n ∈ todo, ∃ t, regGet reg n = some t ∧
        ∀ d ∈ t.depends_on, d ∈ order ∧ lastPos order d < lastPos order n := by
  intro todo
  induction todo with
  | nil => intro _ n hn; cases hn
  | cons m rest ih =>
    intro hok n hn
    unfold checkDepsInOrderLoop at hok
    cases hreg : regGet reg m with
    | none => rw [hreg] at hok; cases hok
    | some t =>
      rw [hreg] at hok
      dsimp only at hok
      cases hmiss : (t.depends_on.filter (fun d => !(order.contains d))).isEmpty with
      | false =>
        rw [hmiss] at hok
        simp at hok
      | true =>
        rw [hmiss, Bool.not_true] at hok
        rw [if_neg (by simp)] at hok
        cases hinv : (t.depends_on.filter
            (fun d => decide (lastPos order m ≤ lastPos order d))).isEmpty with
        | false =>
          rw [hinv] at hok
          simp at hok
        | true =>
          rw [hinv, Bool.not_true] at hok
          rw [if_neg (by simp)] at hok
          rcases List.mem_cons.mp hn with he | he
          · subst he
            refine ⟨t, hreg, ?_⟩
            intro d hd
            rw [List.isEmpty_iff_eq_nil, List.filter_eq_nil] at hmiss hinv
            have h1 := hmiss d hd
            have h2 := hinv d hd
            constructor
            · have hc : order.contains d = true := by
                cases hc2 : order.contains d
                · rw [hc2] at h1; simp at h1
                · rfl
              exact List.elem_iff.mp hc
            · simpa using h2
          · exact ih hok n he

/-- Splitting a successful validation into its three checks. -/
theorem validateModel_ok_parts (reg : List TaskSpec) (order : List String)
    (h : validateModel reg order = .ok ()) :
    checkAllTasksExist reg order = .ok () ∧
    checkCyclicDeps reg order = .ok () ∧
    checkDepsInOrder reg order = .ok () := by
  unfold validateModel at h
  cases h1 : checkAllTasksExist reg order with
  | error e =>
    rw [h1] at h
    simp [Bind.bind, Except.bind] at h
  | ok u =>
    rw [h1] at h
    cases h2 : checkCyclicDeps reg order with
    | error e =>
      rw [h2] at h
      simp [Bind.bind, Except.bind] at h
    | ok v =>
      rw [h2] at h
      simp only [Bind.bind, Except.bind] at h
      exact ⟨by cases u; rfl, by cases v; rfl, h⟩

/-- A successful existence check registers every name of the order. -/
theorem checkAllTasksExist_ok (reg : List TaskSpec) (order : List String)
    (h : checkAllTasksExist reg order = .ok ()) :
    ∀ n ∈ order, ∃ t, regGet reg n = some t := by
  intro n hn
  unfold checkAllTasksExist at h
  by_cases hemp : (order.filter (fun n => (regGet reg n).isNone)).isEmpty
  · rw [List.isEmpty_iff_eq_nil, List.filter_eq_nil] at hemp
    have := hemp n hn
    cases hreg : regGet reg n with
    | none => rw [hreg] at this; simp at this
    | some t => exact ⟨t, rfl⟩
  · rw [if_neg hemp] at h
    cases h

/-- A validated duplicate-free order places every dependency of its `i`-th
task strictly before position `i`. -/
theorem validate_deps_take (reg : List TaskSpec) (order : List String)
    (hval : validateModel reg order = .ok ()) (hnd : order.Nodup) :
    ∀ (i : Nat) (hi : i < order.length),
      ∀ d ∈ depsOf reg (order.get ⟨i, hi⟩), d ∈ order.take i := by
  obtain ⟨-, -, h3⟩ := validateModel_ok_parts reg order hval
  intro i hi d hd
  obtain ⟨t, hreg, hdeps⟩ := checkDepsInOrderLoop_ok reg order order h3
    (order.get ⟨i, hi⟩) (List.get_mem _ _ _)
  unfold depsOf at hd
  rw [hreg] at hd
  obtain ⟨hdo, hdlt⟩ := hdeps d hd
  rw [lastPos_nodup order hnd i hi] at hdlt
  have hdget := lastPos_get order d hdo
  rw [List.mem_take_iff_getElem]
  refine ⟨lastPos order d, by
    simp only [lt_min_iff]
    exact ⟨hdlt, lastPos_lt_length order d hdo⟩, ?_⟩
  simpa using hdget

/-- One loop step for a task returning a non-success result: the result is
recorded in both dicts and the remaining order is abandoned. -/
theorem runLoop_fail_head (reg : List TaskSpec) (n : String)
    (post : List String) (s : RunState) (t : TaskSpec) (r : TaskResult)
    (hreg : regGet reg n = some t)
    (hdep : t.depends_on.all (fun d => s.completed.contains d) = true)
    (hexec : dispatchExec n t.behavior = .ok r) (hfail : r.success = false) :
    runLoop reg (n :: post) s =
      .ok ⟨s.completed, dictInsert s.results n r, dictInsert s.ctxResults n r⟩ := by
  simp only [runLoop]
  rw [hreg]
  dsimp only
  rw [if_pos hdep, hexec]
  dsimp only
  rw [hfail]
  simp

/-- One loop step for a task whose dispatched execution raises: the wrapped
message is recorded as a failure result in both dicts and the remaining
order is abandoned. -/
theorem runLoop_raise_head (reg : List TaskSpec) (n : String)
    (post : List String) (s : RunState) (t : TaskSpec) (msg : String)
    (hreg : regGet reg n = some t)
    (hdep : t.depends_on.all (fun d => s.completed.contains d) = true)
    (hexec : dispatchExec n t.behavior = .error msg) :
    runLoop reg (n :: post) s =
      .ok ⟨s.completed, dictInsert s.results n (TaskResult.failure_result msg),
        dictInsert s.ctxResults n (TaskResult.failure_result msg)⟩ := by
  simp only [runLoop]
  rw [hreg]
  dsimp only
  rw [if_pos hdep, hexec]

/-- Running a prefix of successful tasks: the loop marches through it,
appending each task to the completed list and its success to both result
dicts, and continues into the remaining order from the accumulated state. -/
theorem runLoop_success_prefix (reg : List TaskSpec) :
    ∀ (pre rest2 : List String) (s : RunState),
      (∀ n ∈ pre, taskSucceeds reg n = true) →
      (∀ (i : Nat) (hi : i < pre.length), ∀ d ∈ depsOf reg (pre.get ⟨i, hi⟩),
        d ∈ s.completed ++ pre.take i) →
      ((s.results.map Prod.fst ++ pre).Nodup) →
      (s.ctxResults = s.results) →
      ∃ s2, runLoop reg (pre ++ rest2) s = runLoop reg rest2 s2 ∧
        s2.completed = s.completed ++ pre ∧
        s2.results.map Prod.fst = s.results.map Prod.fst ++ pre ∧
        s2.ctxResults = s2.results ∧
        (∀ pr ∈ s2.results, pr ∈ s.results ∨
          (pr.1 ∈ pre ∧ pr.2.success = true)) := by
  intro pre
  induction pre with
  | nil =>
    intro rest2 s _ _ _ hctx
    exact ⟨s, by simp, by simp, by simp, hctx, fun pr hpr => Or.inl hpr⟩
  | cons n pre2 ih =>
    intro rest2 s hsucc hdeps hnd hctx
    obtain ⟨t, r, hreg, hexec, hrs⟩ :=
      taskSucceeds_spec reg n (hsucc n (List.mem_cons_self _ _))
    have hdep0 : t.depends_on.all (fun d => s.completed.contains d) = true := by
      rw [all_contains_iff]
      intro d hd
      have h0 := hdeps 0 (by simp) d (by
        show d ∈ depsOf reg ((n :: pre2).get ⟨0, by simp⟩)
        unfold depsOf
        rw [show (n :: pre2).get ⟨0, by simp⟩ = n from rfl, hreg]
        exact hd)
      simpa using h0
    have hfresh : n ∉ s.results.map Prod.fst := by
      intro hmem
      exact (List.nodup_append.mp hnd).2.2 hmem (List.mem_cons_self _ _)
    have hstep : runLoop reg ((n :: pre2) ++ rest2) s =
        runLoop reg (pre2 ++ rest2)
          ⟨s.completed ++ [n], s.results ++ [(n, r)], s.results ++ [(n, r)]⟩ := by
      simp only [List.cons_append, runLoop]
      rw [hreg]
      dsimp only
      rw [if_pos hdep0, hexec]
      dsimp only
      rw [hrs]
      simp only [if_pos rfl, hctx, dictInsert_fresh _ _ _ hfresh]
      rfl
    have hdeps2 : ∀ (i : Nat) (hi : i < pre2.length),
        ∀ d ∈ depsOf reg (pre2.get ⟨i, hi⟩),
          d ∈ (s.completed ++ [n]) ++ pre2.take i := by
      intro i hi d hd
      have h1 := hdeps (i + 1) (by simpa using Nat.succ_lt_succ hi) d (by
        rw [show (n :: pre2).get ⟨i + 1, by simpa using Nat.succ_lt_succ hi⟩ =
          pre2.get ⟨i, hi⟩ from rfl]
        exact hd)
      rw [List.take_succ_cons] at h1
      rw [List.append_assoc, List.singleton_append]
      exact h1
    have hnd2 : ((s.results ++ [(n, r)]).map Prod.fst ++ pre2).Nodup := by
      have hshape : (s.results ++ [(n, r)]).map Prod.fst ++ pre2 =
          s.results.map Prod.fst ++ n :: pre2 := by
        simp
      rw [hshape]
      exact hnd
    obtain ⟨s2, hrun, hcomp, hkeys, hctx2, hentries⟩ :=
      ih rest2 ⟨s.completed ++ [n], s.results ++ [(n, r)], s.results ++ [(n, r)]⟩
        (fun m hm => hsucc m (List.mem_cons_of_mem _ hm)) hdeps2 hnd2 rfl
    refine ⟨s2, hstep.trans hrun, ?_, ?_, hctx2, ?_⟩
    · rw [hcomp]
      simp
    · rw [hkeys]
      simp
    · intro pr hpr
      rcases hentries pr hpr with hin | ⟨hp1, hp2⟩
      · rcases List.mem_append.mp hin with hin2 | hin2
        · exact Or.inl hin2
        · rw [List.mem_singleton] at hin2
          subst hin2
          exact Or.inr ⟨List.mem_cons_self _ _, hrs⟩
      · exact Or.inr ⟨List.mem_cons_of_mem _ hp1, hp2⟩

/-- The task loop never raises as long as every task is registered and every
attempted task's dependencies lie among the completed prefix: the only two
raising branches (registry `KeyError`, dependency re-check) are dodged, and
a mid-loop failure merely breaks. -/
theorem runLoop_no_deperror (reg : List TaskSpec) :
    ∀ (rest : List String) (s : RunState),
      (∀ n ∈ rest, ∃ t, regGet reg n = some t) →
      (∀ (i : Nat) (hi : i < rest.length), ∀ d ∈ depsOf reg (rest.get ⟨i, hi⟩),
        d ∈ s.completed ++ rest.take i) →
      ∃ s2, runLoop reg rest s = .ok s2 := by
  intro rest
  induction rest with
  | nil => intro s _ _; exact ⟨s, rfl⟩
  | cons n rest2 ih =>
    intro s hreg hdeps
    obtain ⟨t, hregn⟩ := hreg n (List.mem_cons_self _ _)
    have hdep0 : t.depends_on.all (fun d => s.completed.contains d) = true := by
      rw [all_contains_iff]
      intro d hd
      have h0 := hdeps 0 (by simp) d (by
        show d ∈ depsOf reg ((n :: rest2).get ⟨0, by simp⟩)
        unfold depsOf
        rw [show (n :: rest2).get ⟨0, by simp⟩ = n from rfl, hregn]
        exact hd)
      simpa using h0
    simp only [runLoop]
    rw [hregn]
    dsimp only
    rw [if_pos hdep0]
    cases hexec : dispatchExec n t.behavior with
    | error msg => exact ⟨_, rfl⟩
    | ok r =>
      dsimp only
      cases hrs : r.success with
      | false => simp
      | true =>
        rw [if_pos rfl]
        apply ih
        · exact fun m hm => hreg m (List.mem_cons_of_mem _ hm)
        · intro i hi d hd
          have h1 := hdeps (i + 1) (by simpa using Nat.succ_lt_succ hi) d (by
            rw [show (n :: rest2).get ⟨i + 1,
              by simpa using Nat.succ_lt_succ hi⟩ = rest2.get ⟨i, hi⟩ from rfl]
            exact hd)
          rw [List.take_succ_cons] at h1
          simp only [List.mem_append, List.mem_cons, List.mem_singleton,
            List.not_mem_nil, or_false] at h1 ⊢
          tauto

/-- C9, amended: for a validated `task_order` without duplicate names, the
defensive per-task dependency re-check inside `TaskOrchestrator.execute`
always passes — the run never raises, whatever the tasks do: the
`DependencyError('dependencies not satisfied')` branch is unreachable. -/
theorem C9_recheck_unreachable_nodup (reg : List TaskSpec)
    (order : List String) (hval : validateModel reg order = .ok ())
    (hnd : order.Nodup) :
    ∃ res, executeModel reg order = .ok res := by
  obtain ⟨h1, -, -⟩ := validateModel_ok_parts reg order hval
  obtain ⟨s2, hs2⟩ := runLoop_no_deperror reg order ⟨[], [], []⟩
    (checkAllTasksExist_ok reg order h1)
    (by
      intro i hi d hd
      have := validate_deps_take reg order hval hnd i hi d hd
      simpa using this)
  unfold executeModel
  rw [hval, hs2]
  exact ⟨_, rfl⟩

/-- C9, amended, witness: the registry of `a` and `b` with the duplicate-free
order `[a, b]` validates and executes without a `DependencyError`. -/
theorem C9_recheck_unreachable_nodup_witness :
    ∃ res, executeModel regDup ["a", "b"] = .ok res :=
  C9_recheck_unreachable_nodup regDup ["a", "b"] rfl (by decide)

/-- C1, amended: for a validated `task_order` without duplicate names, if
the tasks before position K succeed and the task at position K returns a
non-success result or raises, `TaskOrchestrator.execute` returns an
ExecutionResult whose `completed_tasks` are exactly the tasks before K,
whose `failed_tasks` is exactly the failing task, whose results dict holds
entries exactly for the tasks up to and including K (none after), and whose
status is FAILED; and if every task succeeds, the status is COMPLETED with
all of `task_order` completed and no failed task. -/
theorem C1_failfast_execution (reg : List TaskSpec) (order : List String)
    (hval : validateModel reg order = .ok ()) (hnd : order.Nodup) :
    (∀ (pre : List String) (k : String) (post : List String) (tk : TaskSpec),
      order = pre ++ k :: post →
      (∀ n ∈ pre, taskSucceeds reg n = true) →
      regGet reg k = some tk →
      ((∃ rk, dispatchExec k tk.behavior = .ok rk ∧ rk.success = false) ∨
        (∃ msg, dispatchExec k tk.behavior = .error msg)) →
      ∃ er ctx, executeModel reg order = .ok (er, ctx) ∧
        er.completed_tasks = pre ∧
        er.failed_tasks = [k] ∧
        er.results.map Prod.fst = pre ++ [k] ∧
        er.status = .failed) ∧
    ((∀ n ∈ order, taskSucceeds reg n = true) →
      ∃ er ctx, executeModel reg order = .ok (er, ctx) ∧
        er.status = .completed ∧ er.completed_tasks = order ∧
        er.failed_tasks = []) := by
  constructor
  · intro pre k post tk horder hpre hregk hfailk
    subst horder
    have hprend : pre.Nodup := hnd.of_append_left
    have hknotpre : k ∉ pre := by
      rw [List.nodup_append] at hnd
      exact fun hk => hnd.2.2 hk (List.mem_cons_self _ _)
    obtain ⟨s2, hrun, hcomp, hkeys, hctx2, hentries⟩ :=
      runLoop_success_prefix reg pre (k :: post) ⟨[], [], []⟩ hpre
        (by
          intro i hi d hd
          have hi2 : i < (pre ++ k :: post).length := by simp; omega
          have hgeteq : (pre ++ k :: post).get ⟨i, hi2⟩ = pre.get ⟨i, hi⟩ := by
            simp [List.getElem_append_left, hi]
          have h0 := validate_deps_take reg _ hval hnd i hi2 d
            (by rw [hgeteq]; exact hd)
          rw [List.take_append_of_le_length (by omega)] at h0
          simpa using h0)
        (by simpa using hprend) rfl
    simp only [List.map_nil, List.nil_append] at hkeys
    simp only [List.nil_append] at hcomp
    have hdepk : tk.depends_on.all (fun d => s2.completed.contains d) = true := by
      rw [all_contains_iff]
      intro d hd
      have hi2 : pre.length < (pre ++ k :: post).length := by simp
      have hgeteq : (pre ++ k :: post).get ⟨pre.length, hi2⟩ = k := by
        rw [List.get_eq_getElem]
        rw [List.getElem_append_right (by simp)]
        simp
      have h0 := validate_deps_take reg _ hval hnd pre.length hi2 d
        (by
          rw [hgeteq]
          unfold depsOf
          rw [hregk]
          exact hd)
      rw [List.take_left] at h0
      rw [hcomp]
      exact h0
    have hfreshk : k ∉ s2.results.map Prod.fst := by
      rw [hkeys]
      exact hknotpre
    have hallsucc : ∀ pr ∈ s2.results, pr.2.success = true := by
      intro pr hpr
      rcases hentries pr hpr with h | ⟨-, h⟩
      · cases h
      · exact h
    -- the failing result recorded for k
    obtain ⟨rk, hrexec, hrkfail⟩ :
        ∃ rk, runLoop reg (k :: post) s2 =
          .ok ⟨s2.completed, s2.results ++ [(k, rk)],
            s2.results ++ [(k, rk)]⟩ ∧ rk.success = false := by
      rcases hfailk with ⟨rk, hex, hrs⟩ | ⟨msg, hex⟩
      · refine ⟨rk, ?_, hrs⟩
        rw [runLoop_fail_head reg k post s2 tk rk hregk hdepk hex hrs]
        rw [hctx2, dictInsert_fresh _ _ _ hfreshk]
      · refine ⟨TaskResult.failure_result msg, ?_, rfl⟩
        rw [runLoop_raise_head reg k post s2 tk msg hregk hdepk hex]
        rw [hctx2, dictInsert_fresh _ _ _ hfreshk]
    have hexecEq : executeModel reg (pre ++ k :: post) =
        .ok (⟨if s2.completed.length = (pre ++ k :: post).length
                then TaskStatus.completed else TaskStatus.failed,
              s2.results ++ [(k, rk)],
              s2.completed,
              ((s2.results ++ [(k, rk)]).filter
                (fun p => !p.2.success)).map Prod.fst⟩,
             s2.results ++ [(k, rk)]) := by
      unfold executeModel
      rw [hval, hrun, hrexec]
    refine ⟨_, _, hexecEq, hcomp, ?_, ?_, ?_⟩
    · show ((s2.results ++ [(k, rk)]).filter
        (fun p => !p.2.success)).map Prod.fst = [k]
      rw [List.filter_append]
      have h1 : s2.results.filter (fun p => !p.2.success) = [] := by
        rw [List.filter_eq_nil]
        intro pr hpr
        simp [hallsucc pr hpr]
      rw [h1]
      simp [hrkfail]
    · show ((s2.results ++ [(k, rk)]).map Prod.fst) = pre ++ [k]
      rw [List.map_append, hkeys]
      rfl
    · show (if s2.completed.length = (pre ++ k :: post).length
        then TaskStatus.completed else TaskStatus.failed) = TaskStatus.failed
      rw [hcomp, if_neg]
      simp
  · intro hall
    obtain ⟨s2, hrun, hcomp, hkeys, hctx2, hentries⟩ :=
      runLoop_success_prefix reg order [] ⟨[], [], []⟩ hall
        (by
          intro i hi d hd
          have h0 := validate_deps_take reg _ hval hnd i hi d hd
          simpa using h0)
        (by simpa using hnd) rfl
    simp only [List.map_nil, List.nil_append] at hkeys
    simp only [List.nil_append] at hcomp
    have hallsucc : ∀ pr ∈ s2.results, pr.2.success = true := by
      intro pr hpr
      rcases hentries pr hpr with h | ⟨-, h⟩
      · cases h
      · exact h
    rw [List.append_nil] at hrun
    have hexecEq : executeModel reg order =
        .ok (⟨if s2.completed.length = order.length
                then TaskStatus.completed else TaskStatus.failed,
              s2.results,
              s2.completed,
              (s2.results.filter (fun p => !p.2.success)).map Prod.fst⟩,
             s2.ctxResults) := by
      unfold executeModel
      rw [hval, hrun]
      rfl
    refine ⟨_, _, hexecEq, ?_, hcomp, ?_⟩
    · show (if s2.completed.length = order.length
        then TaskStatus.completed else TaskStatus.failed) = TaskStatus.completed
      rw [hcomp]
      simp
    · show (s2.results.filter (fun p => !p.2.success)).map Prod.fst = []
      have h1 : s2.results.filter (fun p => !p.2.success) = [] := by
        rw [List.filter_eq_nil]
        intro pr hpr
        simp [hallsucc pr hpr]
      rw [h1]
      rfl

/-- C1, amended, witness: with registry `a` (succeeds), `b` (returns an
explicit failure, depends on `a`), `c` (succeeds, depends on `a`) and order
`[a, b, c]`, the run completes exactly `[a]`, fails exactly `[b]`, records
results only for `a` and `b`, and reports FAILED overall. -/
theorem C1_failfast_execution_witness :
    ∃ er ctx,
      executeModel [⟨"a", [], okBehavior⟩, ⟨"b", ["a"], failBehavior⟩,
          ⟨"c", ["a"], okBehavior⟩] ["a", "b", "c"] = .ok (er, ctx) ∧
      er.completed_tasks = ["a"] ∧
      er.failed_tasks = ["b"] ∧
      er.results.map Prod.fst = ["a"] ++ ["b"] ∧
      er.status = .failed :=
  (C1_failfast_execution
      [⟨"a", [], okBehavior⟩, ⟨"b", ["a"], failBehavior⟩,
        ⟨"c", ["a"], okBehavior⟩] ["a", "b", "c"] rfl (by decide)).1
    ["a"] "b" ["c"] ⟨"b", ["a"], failBehavior⟩ rfl (by decide) rfl
    (Or.inl ⟨TaskResult.failure_result "boom", rfl, rfl⟩)

/-- C2: a task whose `execute` raises (plain or iterable, reached after a
successful prefix of a validated duplicate-free order) does not re-raise to
the caller: `execute` returns an ExecutionResult (the `Except.ok` shape),
records in both the aggregate results dict and the context's results dict a
FAILED TaskResult whose error message carries the exception message as its
suffix, and aborts the rest of the order (result entries stop at the
raising task). -/
theorem C2_exception_captured (reg : List TaskSpec) (order : List String)
    (hval : validateModel reg order = .ok ()) (hnd : order.Nodup) :
    ∀ (pre : List String) (k : String) (post : List String) (tk : TaskSpec)
      (msg : String),
      order = pre ++ k :: post →
      (∀ n ∈ pre, taskSucceeds reg n = true) →
      regGet reg k = some tk →
      (tk.behavior = .plain (.error msg) ∨
        ∃ its, its ≠ [] ∧ tk.behavior = .iterable its (.error msg)) →
      ∃ er ctx w, executeModel reg order = .ok (er, ctx) ∧
        (∃ stem, w = stem ++ msg) ∧
        dictGet er.results k = some (TaskResult.failure_result w) ∧
        dictGet ctx k = some (TaskResult.failure_result w) ∧
        er.results.map Prod.fst = pre ++ [k] := by
  intro pre k post tk msg horder hpre hregk hraise
  subst horder
  have hknotpre : k ∉ pre := by
    rw [List.nodup_append] at hnd
    exact fun hk => hnd.2.2 hk (List.mem_cons_self _ _)
  obtain ⟨w, hexec, hstem⟩ : ∃ w, dispatchExec k tk.behavior = .error w ∧
      ∃ stem, w = stem ++ msg := by
    rcases hraise with hb | ⟨its, hits, hb⟩
    · exact ⟨plainWrapMsg k msg, by rw [hb]; rfl,
        "Error executing task " ++ quoteChar ++ k ++ quoteChar ++ ": ", rfl⟩
    · refine ⟨iterWrapMsg k msg, ?_,
        "Error executing iterable task " ++ quoteChar ++ k ++ quoteChar ++ ": ",
        rfl⟩
      rw [hb]
      unfold dispatchExec
      dsimp only
      rw [if_neg (by simpa using hits)]
  obtain ⟨s2, hrun, hcomp, hkeys, hctx2, hentries⟩ :=
    runLoop_success_prefix reg pre (k :: post) ⟨[], [], []⟩ hpre
      (by
        intro i hi d hd
        have hi2 : i < (pre ++ k :: post).length := by simp; omega
        have hgeteq : (pre ++ k :: post).get ⟨i, hi2⟩ = pre.get ⟨i, hi⟩ := by
          simp [List.getElem_append_left, hi]
        have h0 := validate_deps_take reg _ hval hnd i hi2 d
          (by rw [hgeteq]; exact hd)
        rw [List.take_append_of_le_length (by omega)] at h0
        simpa using h0)
      (by simpa using hnd.of_append_left) rfl
  simp only [List.map_nil, List.nil_append] at hkeys
  simp only [List.nil_append] at hcomp
  have hdepk : tk.depends_on.all (fun d => s2.completed.contains d) = true := by
    rw [all_contains_iff]
    intro d hd
    have hi2 : pre.length < (pre ++ k :: post).length := by simp
    have hgeteq : (pre ++ k :: post).get ⟨pre.length, hi2⟩ = k := by
      rw [List.get_eq_getElem]
      rw [List.getElem_append_right (by simp)]
      simp
    have h0 := validate_deps_take reg _ hval hnd pre.length hi2 d
      (by
        rw [hgeteq]
        unfold depsOf
        rw [hregk]
        exact hd)
    rw [List.take_left] at h0
    rw [hcomp]
    exact h0
  have hfreshk : k ∉ s2.results.map Prod.fst := by
    rw [hkeys]
    exact hknotpre
  have hrexec : runLoop reg (k :: post) s2 =
      .ok ⟨s2.completed, s2.results ++ [(k, TaskResult.failure_result w)],
        s2.results ++ [(k, TaskResult.failure_result w)]⟩ := by
    rw [runLoop_raise_head reg k post s2 tk w hregk hdepk hexec]
    rw [hctx2, dictInsert_fresh _ _ _ hfreshk]
  have hexecEq : executeModel reg (pre ++ k :: post) =
      .ok (⟨if s2.completed.length = (pre ++ k :: post).length
              then TaskStatus.completed else TaskStatus.failed,
            s2.results ++ [(k, TaskResult.failure_result w)],
            s2.completed,
            ((s2.results ++ [(k, TaskResult.failure_result w)]).filter
              (fun p => !p.2.success)).map Prod.fst⟩,
           s2.results ++ [(k, TaskResult.failure_result w)]) := by
    unfold executeModel
    rw [hval, hrun, hrexec]
  refine ⟨_, _, w, hexecEq, hstem, ?_, ?_, ?_⟩
  · exact dictGet_fresh_append s2.results k _ hfreshk
  · exact dictGet_fresh_append s2.results k _ hfreshk
  · show ((s2.results ++ [(k, TaskResult.failure_result w)]).map Prod.fst) =
      pre ++ [k]
    rw [List.map_append, hkeys]
    rfl

/-- C2, witness: a registry whose task `b` raises `kaboom` after the
successful `a`: the run returns a result recording a FAILED entry for `b`
in both dicts, with the exception message as the suffix of the recorded
error, and no entry beyond `b`. -/
theorem C2_exception_captured_witness :
    ∃ er ctx w,
      executeModel [⟨"a", [], okBehavior⟩, ⟨"b", ["a"], raiseBehavior⟩]
        ["a", "b"] = .ok (er, ctx) ∧
      (∃ stem, w = stem ++ "kaboom") ∧
      dictGet er.results "b" = some (TaskResult.failure_result w) ∧
      dictGet ctx "b" = some (TaskResult.failure_result w) ∧
      er.results.map Prod.fst = ["a"] ++ ["b"] :=
  C2_exception_captured
    [⟨"a", [], okBehavior⟩, ⟨"b", ["a"], raiseBehavior⟩] ["a", "b"]
    rfl (by decide) ["a"] "b" [] ⟨"b", ["a"], raiseBehavior⟩ "kaboom"
    rfl (by decide) rfl (Or.inl rfl)

/-- Unpacking of a clean task of the order-consistency check. -/
theorem cleanTask_spec (reg : List TaskSpec) (order : List String)
    (m : String) (h : cleanTask reg order m = true) :
    ∃ t, regGet reg m = some t ∧ ∀ d ∈ t.depends_on,
      order.contains d = true ∧ lastPos order d < lastPos order m := by
  unfold cleanTask at h
  cases hreg : regGet reg m with
  | none => rw [hreg] at h; cases h
  | some t =>
    rw [hreg] at h
    dsimp only at h
    rw [List.all_eq_true] at h
    refine ⟨t, rfl, ?_⟩
    intro d hd
    have := h d hd
    simp only [Bool.and_eq_true, decide_eq_true_eq] at this
    exact this

/-- The order-consistency loop walks silently over clean tasks. -/
theorem depsloop_clean_front (reg : List TaskSpec) (order : List String) :
    ∀ (pre rest : List String),
      (∀ m ∈ pre, cleanTask reg order m = true) →
      checkDepsInOrderLoop reg order (pre ++ rest) =
        checkDepsInOrderLoop reg order rest := by
  intro pre
  induction pre with
  | nil => intro rest _; rfl
  | cons m pre2 ih =>
    intro rest hclean
    obtain ⟨t, hreg, hdeps⟩ :=
      cleanTask_spec reg order m (hclean m (List.mem_cons_self _ _))
    have hmiss : t.depends_on.filter (fun d => !(order.contains d)) = [] := by
      rw [List.filter_eq_nil]
      intro d hd
      rw [(hdeps d hd).1]
      simp
    have hinv : t.depends_on.filter
        (fun d => decide (lastPos order m ≤ lastPos order d)) = [] := by
      rw [List.filter_eq_nil]
      intro d hd
      have := (hdeps d hd).2
      simp
      omega
    show checkDepsInOrderLoop reg order (m :: (pre2 ++ rest)) = _
    rw [checkDepsInOrderLoop.eq_2, hreg]
    dsimp only
    rw [hmiss, hinv]
    simp only [List.isEmpty_nil, Bool.not_true]
    rw [if_neg (by simp), if_neg (by simp)]
    exact ih rest (fun x hx => hclean x (List.mem_cons_of_mem _ hx))

/-- C3, amended: `DependencyValidator.validate` runs existence, cycle
freedom and order consistency in this order — an existence failure lists
every unregistered name of `task_order` and pre-empts the other checks, and
a cycle error pre-empts the order check — but the order-consistency check
stops at the FIRST offending task: when the tasks before `n` are clean and
`n` has dependencies missing from the order, the error lists exactly `n`'s
missing dependencies; when none are missing but some are not strictly
earlier, it lists exactly `n`'s out-of-order dependencies.  Later tasks'
violations are never reported. -/
theorem C3_check_order_and_aggregation (reg : List TaskSpec)
    (order : List String) :
    ((order.filter (fun n => (regGet reg n).isNone)) ≠ [] →
      validateModel reg order =
        .error (.tasksNotFound
          (order.filter (fun n => (regGet reg n).isNone)))) ∧
    (checkAllTasksExist reg order = .ok () →
      ∀ e, checkCyclicDeps reg order = .error e →
        validateModel reg order = .error e) ∧
    (∀ pre n post t, order = pre ++ n :: post →
      checkAllTasksExist reg order = .ok () →
      checkCyclicDeps reg order = .ok () →
      (∀ m ∈ pre, cleanTask reg order m = true) →
      regGet reg n = some t →
      (t.depends_on.filter (fun d => !(order.contains d))) ≠ [] →
      validateModel reg order = .error (.missingDeps n
        (t.depends_on.filter (fun d => !(order.contains d))))) ∧
    (∀ pre n post t, order = pre ++ n :: post →
      checkAllTasksExist reg order = .ok () →
      checkCyclicDeps reg order = .ok () →
      (∀ m ∈ pre, cleanTask reg order m = true) →
      regGet reg n = some t →
      (t.depends_on.filter (fun d => !(order.contains d))) = [] →
      (t.depends_on.filter
        (fun d => decide (lastPos order n ≤ lastPos order d))) ≠ [] →
      validateModel reg order = .error (.outOfOrderDeps n
        (t.depends_on.filter
          (fun d => decide (lastPos order n ≤ lastPos order d))))) := by
  refine ⟨?_, ?_, ?_, ?_⟩
  · intro hne
    unfold validateModel checkAllTasksExist
    rw [if_neg (by simpa using hne)]
    rfl
  · intro h1 e h2
    unfold validateModel
    rw [h1, h2]
    rfl
  · intro pre n post t horder h1 h2 hclean hreg hne
    subst horder
    unfold validateModel
    rw [h1, h2]
    show checkDepsInOrder reg (pre ++ n :: post) = _
    unfold checkDepsInOrder
    rw [depsloop_clean_front reg (pre ++ n :: post) pre (n :: post) hclean]
    rw [checkDepsInOrderLoop.eq_2, hreg]
    dsimp only
    rw [if_pos (by
      cases hcase : (t.depends_on.filter
          (fun d => !((pre ++ n :: post).contains d))).isEmpty
      · simp
      · rw [List.isEmpty_iff_eq_nil] at hcase
        exact absurd hcase hne)]
  · intro pre n post t horder h1 h2 hclean hreg hmiss hne
    subst horder
    unfold validateModel
    rw [h1, h2]
    show checkDepsInOrder reg (pre ++ n :: post) = _
    unfold checkDepsInOrder
    rw [depsloop_clean_front reg (pre ++ n :: post) pre (n :: post) hclean]
    rw [checkDepsInOrderLoop.eq_2, hreg]
    dsimp only
    rw [hmiss]
    simp only [List.isEmpty_nil, Bool.not_true]
    rw [if_neg (by simp)]
    rw [if_pos (by
      cases hcase : (t.depends_on.filter
          (fun d => decide (lastPos (pre ++ n :: post) n ≤
            lastPos (pre ++ n :: post) d))).isEmpty
      · simp
      · rw [List.isEmpty_iff_eq_nil] at hcase
        exact absurd hcase hne)]

/-- C3, amended, witness: with tasks `a` (missing dependency `m1`) and `b`
(missing dependency `m2`) in order `[a, b]`, validation reports exactly
`a`'s missing list `[m1]`. -/
theorem C3_check_order_and_aggregation_witness :
    validateModel regMiss ["a", "b"] =
      .error (.missingDeps "a"
        ((["m1"] : List String).filter
          (fun d => !((["a", "b"] : List String).contains d)))) :=
  (C3_check_order_and_aggregation regMiss ["a", "b"]).2.2.1
    [] "a" ["b"] ⟨"a", ["m1"], okBehavior⟩ rfl rfl rfl (by decide) rfl
    (by decide)

/-- Pointwise implication of filters gives a length bound. -/
theorem filter_imp_length (l : List String) (p q : String → Bool)
    (h : ∀ x, p x = true → q x = true) :
    (l.filter p).length ≤ (l.filter q).length := by
  induction l with
  | nil => simp
  | cons a rest ih =>
    by_cases hp : p a = true
    · rw [List.filter_cons_of_pos hp, List.filter_cons_of_pos (h a hp)]
      simpa using ih
    · rw [List.filter_cons_of_neg (by simpa using hp)]
      by_cases hq : q a = true
      · rw [List.filter_cons_of_pos hq]
        exact le_trans ih (by simp)
      · rw [List.filter_cons_of_neg (by simpa using hq)]
        exact ih

/-- Pointwise implication plus a separating witness gives a strict filter
length bound. -/
theorem filter_imp_length_lt (l : List String) (p q : String → Bool)
    (h : ∀ x, p x = true → q x = true) (a : String) (hal : a ∈ l)
    (hqa : q a = true) (hpa : p a = false) :
    (l.filter p).length < (l.filter q).length := by
  induction l with
  | nil => cases hal
  | cons b rest ih =>
    rcases List.mem_cons.mp hal with hb | hb
    · subst hb
      rw [List.filter_cons_of_neg (by simp [hpa]), List.filter_cons_of_pos hqa]
      exact Nat.lt_succ_of_le (filter_imp_length rest p q h)
    · by_cases hp : p b = true
      · rw [List.filter_cons_of_pos hp, List.filter_cons_of_pos (h b hp)]
        simpa using ih hb
      · rw [List.filter_cons_of_neg (by simpa using hp)]
        by_cases hq : q b = true
        · rw [List.filter_cons_of_pos hq]
          exact lt_of_lt_of_le (ih hb) (by simp)
        · rw [List.filter_cons_of_neg (by simpa using hq)]
          exact ih hb

/-- Membership reading of the Boolean `contains`. -/
theorem contains_iff_mem (l : List String) (x : String) :
    l.contains x = true ↔ x ∈ l := List.elem_iff

/-- Negative membership reading of the Boolean `contains`. -/
theorem not_contains_of_not_mem (l : List String) (x : String)
    (h : x ∉ l) : (!(l.contains x)) = true := by
  cases hc : l.contains x
  · rfl
  · exact absurd ((contains_iff_mem l x).mp hc) h

/-- Growing the visited set does not grow the unvisited count. -/
theorem unvisCount_mono (g : List (String × List String))
    (visited visited2 : List String) (h : ∀ x ∈ visited, x ∈ visited2) :
    unvisCount g visited2 ≤ unvisCount g visited := by
  apply filter_imp_length
  intro x hx
  cases hc : visited.contains x
  · rfl
  · exfalso
    have hx2 : x ∈ visited2 := h x ((contains_iff_mem _ _).mp hc)
    rw [(contains_iff_mem _ _).mpr hx2] at hx
    cases hx

/-- Visiting a graph node strictly shrinks the unvisited count. -/
theorem unvisCount_strict (g : List (String × List String))
    (visited : List String) (node : String)
    (hn : node ∈ g.map Prod.fst) (hnv : node ∉ visited) :
    unvisCount g (node :: visited) < unvisCount g visited := by
  refine filter_imp_length_lt _ _ _ ?_ node (List.mem_dedup.mpr hn) ?_ ?_
  · intro x hx
    cases hc : visited.contains x
    · rfl
    · exfalso
      have hx2 : x ∈ node :: visited :=
        List.mem_cons_of_mem _ ((contains_iff_mem _ _).mp hc)
      rw [(contains_iff_mem _ _).mpr hx2] at hx
      cases hx
  · exact not_contains_of_not_mem _ _ hnv
  · rw [(contains_iff_mem _ _).mpr (List.mem_cons_self _ _)]
    rfl

/-- A graph node outside the visited set witnesses a positive unvisited
count. -/
theorem unvisCount_pos (g : List (String × List String))
    (visited : List String) (node : String)
    (hn : node ∈ g.map Prod.fst) (hnv : node ∉ visited) :
    0 < unvisCount g visited := by
  unfold unvisCount
  rw [List.length_pos]
  intro hnil
  rw [List.eq_nil_iff_forall_not_mem] at hnil
  apply hnil node
  rw [List.mem_filter, List.mem_dedup]
  exact ⟨hn, not_contains_of_not_mem _ _ hnv⟩

/-- The first index found for a member is within bounds. -/
theorem firstIdxOf_lt_length (l : List String) (x : String) (h : x ∈ l) :
    firstIdxOf l x < l.length := by
  induction l with
  | nil => cases h
  | cons a rest ih =>
    unfold firstIdxOf
    by_cases ha : (a == x) = true
    · rw [if_pos ha]
      simp
    · rw [if_neg ha]
      rcases List.mem_cons.mp h with he | he
      · exact absurd (by simp [he]) ha
      · simpa using Nat.succ_lt_succ (ih he)

/-- The element at the first found index is the sought one. -/
theorem firstIdxOf_get (l : List String) (x : String) (h : x ∈ l) :
    l.get ⟨firstIdxOf l x, firstIdxOf_lt_length l x h⟩ = x := by
  induction l with
  | nil => cases h
  | cons a rest ih =>
    by_cases ha : (a == x) = true
    · have h0 : firstIdxOf (a :: rest) x = 0 := by
        rw [show firstIdxOf (a :: rest) x =
          if (a == x) = true then 0 else firstIdxOf rest x + 1 from rfl]
        rw [if_pos ha]
      simp only [h0]
      simpa using ha
    · have h0 : firstIdxOf (a :: rest) x = firstIdxOf rest x + 1 := by
        rw [show firstIdxOf (a :: rest) x =
          if (a == x) = true then 0 else firstIdxOf rest x + 1 from rfl]
        rw [if_neg ha]
      rcases List.mem_cons.mp h with he | he
      · exact absurd (by simp [he]) ha
      · simp only [h0, List.get_cons_succ]
        exact ih he

/-- The last element of a nonempty suffix is the last element of the
list. -/
theorem getLast?_drop_of_lt (l : List String) :
    ∀ (i : Nat), i < l.length → (l.drop i).getLast? = l.getLast? := by
  induction l with
  | nil => intro i hi; cases hi
  | cons a rest ih =>
    intro i hi
    cases i with
    | zero => rfl
    | succ j =>
      have hj : j < rest.length := by simpa using hi
      rw [List.drop_succ_cons, ih j hj]
      cases hr : rest with
      | nil => rw [hr] at hj; cases hj
      | cons b rest2 => simp [List.getLast?_cons_cons]

/-- The cycle list reported by the depth-first search is a genuine cycle of
the graph: the raise happens on an edge from the last stack entry back into
the stack, and the stack is an edge-chain. -/
theorem buildCycle_isCycle (g : List (String × List String))
    (path : List String) (nb lastn : String)
    (hch : List.Chain' (fun a b => b ∈ gnb g a) path)
    (hlast : path.getLast? = some lastn)
    (hedge : nb ∈ gnb g lastn) (hmem : nb ∈ path) :
    IsCycle g (buildCycle path nb) := by
  have hi := firstIdxOf_lt_length path nb hmem
  have hget := firstIdxOf_get path nb hmem
  have hdropne : path.drop (firstIdxOf path nb) ≠ [] := by
    intro h0
    have := List.drop_eq_nil_iff_le.mp h0
    omega
  refine ⟨?_, ?_, ?_⟩
  · unfold buildCycle
    rw [List.length_append, List.length_drop]
    simp
    omega
  · unfold buildCycle
    rw [List.getLast?_concat, List.head?_append, List.head?_drop]
    rw [List.getElem?_eq_getElem hi]
    have hgetE : path[firstIdxOf path nb] = nb := by simpa using hget
    rw [hgetE]
    rfl
  · unfold buildCycle
    rw [List.chain'_append]
    refine ⟨hch.drop _, List.chain'_singleton nb, ?_⟩
    intro x hx y hy
    rw [getLast?_drop_of_lt path _ hi, hlast] at hx
    simp only [Option.mem_def, Option.some_inj] at hx
    simp only [List.head?_cons, Option.mem_def, Option.some_inj] at hy
    subst hx
    subst hy
    exact hedge

/-- Shape of the graph built for the cycle check: its keys are the processed
names, and each entry holds that task's dependencies restricted to the
order. -/
theorem buildGraph_spec (reg : List TaskSpec) (order : List String) :
    ∀ (todo : List String) (g : List (String × List String)),
      buildGraph reg order todo = .ok g →
      g.map Prod.fst = todo ∧
      ∀ p ∈ g, ∃ t, regGet reg p.1 = some t ∧
        p.2 = t.depends_on.filter (fun d => order.contains d) := by
  intro todo
  induction todo with
  | nil =>
    intro g hg
    cases hg
    exact ⟨rfl, fun p hp => absurd hp (List.not_mem_nil p)⟩
  | cons n rest ih =>
    intro g hg
    unfold buildGraph at hg
    cases hreg : regGet reg n with
    | none => rw [hreg] at hg; cases hg
    | some t =>
      rw [hreg] at hg
      dsimp only at hg
      cases hrec : buildGraph reg order rest with
      | error e => rw [hrec] at hg; cases hg
      | ok g2 =>
        rw [hrec] at hg
        cases hg
        obtain ⟨hkeys, hvals⟩ := ih g2 hrec
        refine ⟨by simp [hkeys], ?_⟩
        intro p hp
        rcases List.mem_cons.mp hp with hp | hp
        · subst hp
          exact ⟨t, hreg, rfl⟩
        · exact hvals p hp

/-- Every neighbour in the built graph is again one of its keys. -/
theorem buildGraph_closed (reg : List TaskSpec) (order : List String)
    (g : List (String × List String))
    (hg : buildGraph reg order order = .ok g) :
    ∀ a nb, nb ∈ gnb g a → nb ∈ g.map Prod.fst := by
  obtain ⟨hkeys, hvals⟩ := buildGraph_spec reg order order g hg
  intro a nb hnb
  unfold gnb at hnb
  cases hfind : g.find? (fun p => p.1 == a) with
  | none => rw [hfind] at hnb; cases hnb
  | some p =>
    rw [hfind] at hnb
    dsimp only at hnb
    obtain ⟨t, -, hp2⟩ := hvals p (List.mem_of_find?_eq_some hfind)
    rw [hp2] at hnb
    rw [hkeys]
    exact (contains_iff_mem _ _).mp (List.of_mem_filter hnb)

/-- Adjacency of the built graph for a name of the order: exactly the
task's dependencies restricted to the order. -/
theorem buildGraph_gnb (reg : List TaskSpec) (order : List String) :
    ∀ (todo : List String) (g : List (String × List String)),
      buildGraph reg order todo = .ok g →
      ∀ n t, n ∈ todo → regGet reg n = some t →
        gnb g n = t.depends_on.filter (fun d => order.contains d) := by
  intro todo
  induction todo with
  | nil => intro g hg n t hn; cases hn
  | cons m rest ih =>
    intro g hg n t hn hreg
    unfold buildGraph at hg
    cases hregm : regGet reg m with
    | none => rw [hregm] at hg; cases hg
    | some tm =>
      rw [hregm] at hg
      dsimp only at hg
      cases hrec : buildGraph reg order rest with
      | error e => rw [hrec] at hg; cases hg
      | ok g2 =>
        rw [hrec] at hg
        cases hg
        by_cases hnm : m = n
        · subst hnm
          rw [hreg] at hregm
          cases hregm
          unfold gnb
          rw [List.find?_cons_of_pos _ (by simp)]
        · unfold gnb
          rw [List.find?_cons_of_neg _ (by simp [hnm])]
          have := ih g2 hrec n t
            (by rcases List.mem_cons.mp hn with h | h
                · exact absurd h.symm hnm
                · exact h) hreg
          unfold gnb at this
          exact this

/-- The neighbour loop only grows the visited set, provided the descent
does. -/
theorem neighborsGo_mono
    (step : String → List String → Except DepError (List String))
    (path : List String)
    (hstep : ∀ nb vis v2, step nb vis = .ok v2 → ∀ x ∈ vis, x ∈ v2) :
    ∀ (nbs visited v2 : List String),
      neighborsGo step path nbs visited = .ok v2 →
      ∀ x ∈ visited, x ∈ v2 := by
  intro nbs
  induction nbs with
  | nil =>
    intro visited v2 h x hx
    cases h
    exact hx
  | cons nb rest ih =>
    intro visited v2 h x hx
    unfold neighborsGo at h
    by_cases hv : nb ∈ visited
    · rw [if_pos hv] at h
      by_cases hp : nb ∈ path
      · rw [if_pos hp] at h
        cases h
      · rw [if_neg hp] at h
        exact ih visited v2 h x hx
    · rw [if_neg hv] at h
      cases hstepr : step nb visited with
      | error e => rw [hstepr] at h; cases h
      | ok v1 =>
        rw [hstepr] at h
        exact ih v1 v2 h x (hstep nb visited v1 hstepr x hx)

/-- The depth-first search only grows the visited set and visits its root
node. -/
theorem hasCycleF_mono (g : List (String × List String)) :
    ∀ (fuel : Nat) (node : String) (path visited v2 : List String),
      hasCycleF g fuel node path visited = .ok v2 →
      (∀ x ∈ visited, x ∈ v2) ∧ node ∈ v2 := by
  intro fuel
  induction fuel with
  | zero => intro node path visited v2 h; cases h
  | succ f ih =>
    intro node path visited v2 h
    unfold hasCycleF at h
    have hmono := neighborsGo_mono
      (fun nb vis => hasCycleF g f nb (path ++ [node]) vis) (path ++ [node])
      (fun nb vis w hw x hx => ((ih nb (path ++ [node]) vis w) hw).1 x hx)
      (gnb g node) (node :: visited) v2 h
    exact ⟨fun x hx => hmono x (List.mem_cons_of_mem _ hx),
      hmono node (List.mem_cons_self _ _)⟩

/-- The neighbour loop never invents a fuel exhaustion: with enough fuel
budget for the descent, it reports only real errors. -/
theorem neighborsGo_nofuel (g : List (String × List String))
    (step : String → List String → Except DepError (List String))
    (path : List String) (F : Nat)
    (hstep_nf : ∀ nb vis, nb ∉ vis → nb ∈ g.map Prod.fst →
      unvisCount g vis ≤ F → step nb vis ≠ .error .fuelExhausted)
    (hstep_mono : ∀ nb vis v2, step nb vis = .ok v2 → ∀ x ∈ vis, x ∈ v2) :
    ∀ (nbs visited : List String),
      (∀ nb ∈ nbs, nb ∈ g.map Prod.fst) → unvisCount g visited ≤ F →
      neighborsGo step path nbs visited ≠ .error .fuelExhausted := by
  intro nbs
  induction nbs with
  | nil => intro visited _ _ h; cases h
  | cons nb rest ih =>
    intro visited hnbs hbound h
    unfold neighborsGo at h
    by_cases hv : nb ∈ visited
    · rw [if_pos hv] at h
      by_cases hp : nb ∈ path
      · rw [if_pos hp] at h
        cases h
      · rw [if_neg hp] at h
        exact ih visited (fun x hx => hnbs x (List.mem_cons_of_mem _ hx))
          hbound h
    · rw [if_neg hv] at h
      cases hstepr : step nb visited with
      | error e =>
        rw [hstepr] at h
        cases h
        exact hstep_nf nb visited hv (hnbs nb (List.mem_cons_self _ _))
          hbound hstepr
      | ok v1 =>
        rw [hstepr] at h
        refine ih v1 (fun x hx => hnbs x (List.mem_cons_of_mem _ hx)) ?_ h
        exact le_trans
          (unvisCount_mono g visited v1 (hstep_mono nb visited v1 hstepr))
          hbound

/-- The depth-first search never exhausts its fuel when the fuel dominates
the number of unvisited graph nodes. -/
theorem hasCycleF_nofuel (g : List (String × List String))
    (hg : ∀ a nb, nb ∈ gnb g a → nb ∈ g.map Prod.fst) :
    ∀ (fuel : Nat) (node : String) (path visited : List String),
      node ∉ visited → node ∈ g.map Prod.fst →
      unvisCount g visited ≤ fuel →
      hasCycleF g fuel node path visited ≠ .error .fuelExhausted := by
  intro fuel
  induction fuel with
  | zero =>
    intro node path visited hnv hn hbound
    have := unvisCount_pos g visited node hn hnv
    omega
  | succ f ih =>
    intro node path visited hnv hn hbound
    unfold hasCycleF
    apply neighborsGo_nofuel g _ _ f
    · intro nb vis hnbv hnbn hb
      exact ih nb (path ++ [node]) vis hnbv hnbn hb
    · intro nb vis v2 hw x hx
      exact ((hasCycleF_mono g f nb (path ++ [node]) vis v2) hw).1 x hx
    · exact fun x hx => hg node x hx
    · have := unvisCount_strict g visited node hn hnv
      omega

/-- Errors surfacing from the neighbour loop are fuel exhaustion or a
genuine cycle: a raise at this level closes an edge from the last stack
entry back into the stack. -/
theorem neighborsGo_err (g : List (String × List String))
    (step : String → List String → Except DepError (List String))
    (path : List String) (lastn : String)
    (hch : List.Chain' (fun a b => b ∈ gnb g a) path)
    (hlast : path.getLast? = some lastn)
    (hstep_err : ∀ nb vis e, nb ∈ gnb g lastn → step nb vis = .error e →
      e = .fuelExhausted ∨ ∃ c, e = .cyclicDependency c ∧ IsCycle g c) :
    ∀ (nbs visited : List String) (e : DepError),
      (∀ nb ∈ nbs, nb ∈ gnb g lastn) →
      neighborsGo step path nbs visited = .error e →
      e = .fuelExhausted ∨ ∃ c, e = .cyclicDependency c ∧ IsCycle g c := by
  intro nbs
  induction nbs with
  | nil => intro visited e _ h; cases h
  | cons nb rest ih =>
    intro visited e hnbs h
    unfold neighborsGo at h
    by_cases hv : nb ∈ visited
    · rw [if_pos hv] at h
      by_cases hp : nb ∈ path
      · rw [if_pos hp] at h
        cases h
        refine Or.inr ⟨buildCycle path nb, rfl, ?_⟩
        exact buildCycle_isCycle g path nb lastn hch hlast
          (hnbs nb (List.mem_cons_self _ _)) hp
      · rw [if_neg hp] at h
        exact ih visited e (fun x hx => hnbs x (List.mem_cons_of_mem _ hx)) h
    · rw [if_neg hv] at h
      cases hstepr : step nb visited with
      | error e2 =>
        rw [hstepr] at h
        cases h
        exact hstep_err nb visited e (hnbs nb (List.mem_cons_self _ _)) hstepr
      | ok v1 =>
        rw [hstepr] at h
        exact ih v1 e (fun x hx => hnbs x (List.mem_cons_of_mem _ hx)) h

/-- Errors surfacing from the depth-first search are fuel exhaustion or a
genuine cycle, provided the stack extended with the root is an
edge-chain. -/
theorem hasCycleF_err (g : List (String × List String)) :
    ∀ (fuel : Nat) (node : String) (path visited : List String)
      (e : DepError),
      List.Chain' (fun a b => b ∈ gnb g a) (path ++ [node]) →
      hasCycleF g fuel node path visited = .error e →
      e = .fuelExhausted ∨ ∃ c, e = .cyclicDependency c ∧ IsCycle g c := by
  intro fuel
  induction fuel with
  | zero =>
    intro node path visited e hch h
    cases h
    exact Or.inl rfl
  | succ f ih =>
    intro node path visited e hch h
    unfold hasCycleF at h
    refine neighborsGo_err g _ (path ++ [node]) node hch
      (List.getLast?_concat _) ?_ (gnb g node) (node :: visited) e
      (fun x hx => hx) h
    intro nb vis e2 hnb hstepr
    refine ih nb (path ++ [node]) vis e2 ?_ hstepr
    rw [List.chain'_append]
    exact ⟨hch, List.chain'_singleton nb,
      fun x hx y hy => by
        rw [List.getLast?_concat] at hx
        simp only [Option.mem_def, Option.some_inj] at hx
        simp only [List.head?_cons, Option.mem_def, Option.some_inj] at hy
        subst hx
        subst hy
        exact hnb⟩

/-- Errors surfacing from the top-level cycle-check loop are fuel
exhaustion or a genuine cycle. -/
theorem checkCyclicLoop_err (g : List (String × List String)) (fuel : Nat) :
    ∀ (todo visited : List String) (e : DepError),
      checkCyclicLoop g fuel todo visited = .error e →
      e = .fuelExhausted ∨ ∃ c, e = .cyclicDependency c ∧ IsCycle g c := by
  intro todo
  induction todo with
  | nil => intro visited e h; cases h
  | cons n rest ih =>
    intro visited e h
    unfold checkCyclicLoop at h
    by_cases hv : n ∈ visited
    · rw [if_pos hv] at h
      exact ih visited e h
    · rw [if_neg hv] at h
      cases hrun : hasCycleF g fuel n [] visited with
      | error e2 =>
        rw [hrun] at h
        cases h
        exact hasCycleF_err g fuel n [] visited e
          (by simpa using List.chain'_singleton n) hrun
      | ok v2 =>
        rw [hrun] at h
        exact ih v2 e h

/-- A reverse topological sort is closed under taking dependencies. -/
theorem TopoFin_mem_succ (g : List (String × List String)) :
    ∀ (L : List String), TopoFin g L →
      ∀ a ∈ L, ∀ v ∈ gnb g a, v ∈ L := by
  intro L
  induction L with
  | nil => intro _ a ha; cases ha
  | cons b rest ih =>
    intro h a ha v hv
    obtain ⟨h1, h2⟩ := h
    rcases List.mem_cons.mp ha with he | he
    · subst he
      exact List.mem_cons_of_mem _ (h1 v hv)
    · exact List.mem_cons_of_mem _ (ih h2 a he v hv)

/-- The ends of a cycle coincide. -/
theorem cycle_ends_eq (c : List String) (hlen : 2 ≤ c.length)
    (hh : c.head? = c.getLast?) (h0 : 0 < c.length)
    (hL : c.length - 1 < c.length) :
    c.get ⟨0, h0⟩ = c.get ⟨c.length - 1, hL⟩ := by
  rw [List.head?_eq_getElem?, List.getLast?_eq_getElem?] at hh
  rw [List.getElem?_eq_getElem h0, List.getElem?_eq_getElem hL] at hh
  simpa using hh

/-- Every node of a cycle has a predecessor within the cycle. -/
theorem isCycle_pred (g : List (String × List String)) (c : List String)
    (hc : IsCycle g c) : ∀ u ∈ c, ∃ w, w ∈ c ∧ u ∈ gnb g w := by
  obtain ⟨hlen, hends, hch⟩ := hc
  rw [List.chain'_iff_get] at hch
  intro u hu
  obtain ⟨⟨i, hi⟩, hgi⟩ := List.mem_iff_get.mp hu
  cases i with
  | zero =>
    have hL2 : c.length - 2 < c.length - 1 := by omega
    have hedge := hch (c.length - 2) hL2
    have hidx : (⟨c.length - 2 + 1, by omega⟩ : Fin c.length) =
        ⟨c.length - 1, by omega⟩ := Fin.ext (by simp; omega)
    rw [hidx] at hedge
    have hends2 := cycle_ends_eq c hlen hends (by omega) (by omega)
    refine ⟨c.get ⟨c.length - 2, by omega⟩, List.get_mem _ _ _, ?_⟩
    rw [← hgi, hends2]
    exact hedge
  | succ j =>
    have hj : j < c.length - 1 := by omega
    have hedge := hch j hj
    have hidx : (⟨j + 1, by omega⟩ : Fin c.length) = ⟨j + 1, hi⟩ :=
      Fin.ext rfl
    refine ⟨c.get ⟨j, by omega⟩, List.get_mem _ _ _, ?_⟩
    rw [← hgi]
    exact hedge

/-- No cycle can live inside a duplicate-free reverse topological sort. -/
theorem topo_no_cycle (g : List (String × List String)) :
    ∀ (L : List String), TopoFin g L → L.Nodup →
      ∀ c, IsCycle g c → (∀ x ∈ c, x ∈ L) → False := by
  intro L
  induction L with
  | nil =>
    intro _ _ c hc hsub
    have hlen := hc.1
    cases hcs : c with
    | nil => rw [hcs] at hlen; simp at hlen
    | cons a rest =>
      exact (List.not_mem_nil a) (hsub a (hcs ▸ List.mem_cons_self _ _))
  | cons u rest ih =>
    intro h hnd c hc hsub
    obtain ⟨h1, h2⟩ := h
    have hu_rest : u ∉ rest := (List.nodup_cons.mp hnd).1
    by_cases hu : u ∈ c
    · obtain ⟨w, hwc, hedge⟩ := isCycle_pred g c hc u hu
      rcases List.mem_cons.mp (hsub w hwc) with he | he
      · rw [he] at hedge
        exact hu_rest (h1 u hedge)
      · exact hu_rest (TopoFin_mem_succ g rest h2 w he u hedge)
    · refine ih h2 (List.nodup_cons.mp hnd).2 c hc ?_
      intro x hx
      rcases List.mem_cons.mp (hsub x hx) with he | he
      · exact absurd (he ▸ hx) hu
      · exact he

/-- A strictly edge-decreasing rank rules out cycles. -/
theorem no_cycle_of_rank (g : List (String × List String))
    (f : String → Nat) (hf : ∀ a b, b ∈ gnb g a → f b < f a) :
    ∀ c, ¬ IsCycle g c := by
  intro c hc
  obtain ⟨hlen, hends, hch⟩ := hc
  rw [List.chain'_iff_get] at hch
  have hdesc : ∀ (j : Nat) (hj : j < c.length),
      f (c.get ⟨j, hj⟩) + j ≤ f (c.get ⟨0, by omega⟩) := by
    intro j
    induction j with
    | zero => intro hj; simp
    | succ k ihk =>
      intro hj
      have hk : k < c.length - 1 := by omega
      have hedge := hch k hk
      have := hf _ _ hedge
      have hprev := ihk (by omega)
      have hidx : (⟨k + 1, by omega⟩ : Fin c.length) = ⟨k + 1, hj⟩ :=
        Fin.ext rfl
      rw [hidx] at this
      omega
  have hL := hdesc (c.length - 1) (by omega)
  have hends2 := cycle_ends_eq c hlen hends (by omega) (by omega)
  rw [← hends2] at hL
  omega

/-- Completeness invariant through the neighbour loop: a successful pass
extends the ghost finished list so that it covers every processed neighbour
while staying a duplicate-free reverse topological sort. -/
theorem neighborsGo_complete (g : List (String × List String))
    (step : String → List String → Except DepError (List String))
    (path : List String)
    (hstep : ∀ nb vis fin v2, nb ∉ vis → VisInv g path vis fin →
      step nb vis = .ok v2 →
      ∃ gin, VisInv g path v2 gin ∧ (∀ x ∈ fin, x ∈ gin) ∧ nb ∈ gin) :
    ∀ (nbs visited fin v2 : List String), VisInv g path visited fin →
      neighborsGo step path nbs visited = .ok v2 →
      ∃ gin, VisInv g path v2 gin ∧ (∀ x ∈ fin, x ∈ gin) ∧
        ∀ nb ∈ nbs, nb ∈ gin := by
  intro nbs
  induction nbs with
  | nil =>
    intro visited fin v2 hinv h
    cases h
    exact ⟨fin, hinv, fun x hx => hx, fun nb hnb => absurd hnb (by simp)⟩
  | cons nb rest ih =>
    intro visited fin v2 hinv h
    unfold neighborsGo at h
    by_cases hv : nb ∈ visited
    · rw [if_pos hv] at h
      by_cases hp : nb ∈ path
      · rw [if_pos hp] at h
        cases h
      · rw [if_neg hp] at h
        obtain ⟨gin, hinv2, hsub, hrest⟩ := ih visited fin v2 hinv h
        refine ⟨gin, hinv2, hsub, ?_⟩
        intro x hx
        rcases List.mem_cons.mp hx with he | he
        · subst he
          have hx2 := (hinv.1 x).mp hv
          rcases hx2 with h2 | h2
          · exact absurd h2 hp
          · exact hsub x h2
        · exact hrest x he
    · rw [if_neg hv] at h
      cases hstepr : step nb visited with
      | error e => rw [hstepr] at h; cases h
      | ok v1 =>
        rw [hstepr] at h
        obtain ⟨gin1, hinv1, hsub1, hnb1⟩ :=
          hstep nb visited fin v1 hv hinv hstepr
        obtain ⟨gin2, hinv2, hsub2, hrest2⟩ := ih v1 gin1 v2 hinv1 h
        refine ⟨gin2, hinv2, fun x hx => hsub2 x (hsub1 x hx), ?_⟩
        intro x hx
        rcases List.mem_cons.mp hx with he | he
        · exact he ▸ hsub2 nb hnb1
        · exact hrest2 x he

/-- Completeness invariant through the depth-first search: a successful
search finishes its root node, extending the duplicate-free reverse
topological sort. -/
theorem hasCycleF_complete (g : List (String × List String)) :
    ∀ (fuel : Nat) (node : String) (path visited fin v2 : List String),
      node ∉ visited → VisInv g path visited fin →
      hasCycleF g fuel node path visited = .ok v2 →
      ∃ gin, VisInv g path v2 gin ∧ (∀ x ∈ fin, x ∈ gin) ∧ node ∈ gin := by
  intro fuel
  induction fuel with
  | zero => intro node path visited fin v2 _ _ h; cases h
  | succ f ih =>
    intro node path visited fin v2 hnv hinv h
    unfold hasCycleF at h
    have hpathvis : ∀ x ∈ path, x ∈ visited :=
      fun x hx => (hinv.1 x).mpr (Or.inl hx)
    have hfinvis : ∀ x ∈ fin, x ∈ visited :=
      fun x hx => (hinv.1 x).mpr (Or.inr hx)
    have hinv2 : VisInv g (path ++ [node]) (node :: visited) fin := by
      refine ⟨?_, hinv.2.1, hinv.2.2.1, ?_⟩
      · intro x
        constructor
        · intro hx
          rcases List.mem_cons.mp hx with he | he
          · subst he
            exact Or.inl (List.mem_append_right _ (List.mem_singleton.mpr rfl))
          · rcases (hinv.1 x).mp he with h2 | h2
            · exact Or.inl (List.mem_append_left _ h2)
            · exact Or.inr h2
        · intro hx
          rcases hx with h2 | h2
          · rcases List.mem_append.mp h2 with h3 | h3
            · exact List.mem_cons_of_mem _ ((hinv.1 x).mpr (Or.inl h3))
            · rw [List.mem_singleton] at h3
              exact h3 ▸ List.mem_cons_self _ _
          · exact List.mem_cons_of_mem _ ((hinv.1 x).mpr (Or.inr h2))
      · intro x hx
        intro hmem
        rcases List.mem_append.mp hmem with h3 | h3
        · exact hinv.2.2.2 x hx h3
        · rw [List.mem_singleton] at h3
          exact hnv (h3 ▸ hfinvis x hx)
    obtain ⟨gin, hinvg, hsubg, hnbsg⟩ :=
      neighborsGo_complete g _ (path ++ [node])
        (fun nb vis fin2 w hnb hinvw hw => ih nb (path ++ [node]) vis fin2 w
          hnb hinvw hw)
        (gnb g node) (node :: visited) fin v2 hinv2 h
    have hnodegin : node ∉ gin := by
      intro hmem
      exact hinvg.2.2.2 node hmem
        (List.mem_append_right _ (List.mem_singleton.mpr rfl))
    refine ⟨node :: gin, ⟨?_, ?_, ?_, ?_⟩, ?_, List.mem_cons_self _ _⟩
    · intro x
      constructor
      · intro hx
        rcases (hinvg.1 x).mp hx with h2 | h2
        · rcases List.mem_append.mp h2 with h3 | h3
          · exact Or.inl h3
          · rw [List.mem_singleton] at h3
            exact Or.inr (h3 ▸ List.mem_cons_self _ _)
        · exact Or.inr (List.mem_cons_of_mem _ h2)
      · intro hx
        rcases hx with h2 | h2
        · exact (hinvg.1 x).mpr (Or.inl (List.mem_append_left _ h2))
        · rcases List.mem_cons.mp h2 with h3 | h3
          · exact (hinvg.1 x).mpr
              (Or.inl (List.mem_append_right _ (List.mem_singleton.mpr h3)))
          · exact (hinvg.1 x).mpr (Or.inr h3)
    · exact ⟨fun v hv => hnbsg v hv, hinvg.2.1⟩
    · exact List.nodup_cons.mpr ⟨hnodegin, hinvg.2.2.1⟩
    · intro x hx
      rcases List.mem_cons.mp hx with he | he
      · subst he
        exact fun hmem => hnv (hpathvis x hmem)
      · exact fun hmem =>
          hinvg.2.2.2 x he (List.mem_append_left _ hmem)
    · exact fun x hx => List.mem_cons_of_mem _ (hsubg x hx)

/-- Completeness of the top-level cycle-check loop: a fully successful run
produces a duplicate-free reverse topological sort covering every root it
was asked to visit. -/
theorem checkCyclicLoop_complete (g : List (String × List String))
    (fuel : Nat) :
    ∀ (todo visited fin : List String), VisInv g [] visited fin →
      checkCyclicLoop g fuel todo visited = .ok () →
      ∃ gin, TopoFin g gin ∧ gin.Nodup ∧ (∀ x ∈ fin, x ∈ gin) ∧
        ∀ n ∈ todo, n ∈ gin := by
  intro todo
  induction todo with
  | nil =>
    intro visited fin hinv _
    exact ⟨fin, hinv.2.1, hinv.2.2.1, fun x hx => hx,
      fun n hn => absurd hn (by simp)⟩
  | cons n rest ih =>
    intro visited fin hinv h
    unfold checkCyclicLoop at h
    by_cases hv : n ∈ visited
    · rw [if_pos hv] at h
      obtain ⟨gin, ht, hnd, hsub, hrest⟩ := ih visited fin hinv h
      have hnfin : n ∈ fin := by
        rcases (hinv.1 n).mp hv with h2 | h2
        · exact absurd h2 (by simp)
        · exact h2
      refine ⟨gin, ht, hnd, hsub, ?_⟩
      intro x hx
      rcases List.mem_cons.mp hx with he | he
      · exact he ▸ hsub n hnfin
      · exact hrest x he
    · rw [if_neg hv] at h
      cases hrun : hasCycleF g fuel n [] visited with
      | error e => rw [hrun] at h; cases h
      | ok v2 =>
        rw [hrun] at h
        obtain ⟨gin1, hinv1, hsub1, hn1⟩ :=
          hasCycleF_complete g fuel n [] visited fin v2 hv hinv hrun
        obtain ⟨gin2, ht, hnd, hsub2, hrest⟩ := ih v2 gin1 hinv1 h
        refine ⟨gin2, ht, hnd, fun x hx => hsub2 x (hsub1 x hx), ?_⟩
        intro x hx
        rcases List.mem_cons.mp hx with he | he
        · exact he ▸ hsub2 n hn1
        · exact hrest x he

/-- A successful run of the cycle check over the graph built for the order
rules out every cycle of that graph. -/
theorem checkCyclicDeps_ok_no_cycle (reg : List TaskSpec)
    (order : List String) (g : List (String × List String))
    (hbuild : buildGraph reg order order = .ok g)
    (hok : checkCyclicDeps reg order = .ok ()) :
    ∀ c, ¬ IsCycle g c := by
  intro c hc
  unfold checkCyclicDeps at hok
  rw [hbuild] at hok
  obtain ⟨gin, ht, hnd, -, hcover⟩ :=
    checkCyclicLoop_complete g (order.length + 1) order [] []
      ⟨fun x => by simp, trivial, List.nodup_nil, fun x hx => absurd hx (by simp)⟩
      hok
  refine topo_no_cycle g gin ht hnd c hc ?_
  intro x hx
  obtain ⟨w, hwc, hedge⟩ := isCycle_pred g c hc x hx
  have hxnode := buildGraph_closed reg order g hbuild w x hedge
  rw [(buildGraph_spec reg order order g hbuild).1] at hxnode
  exact hcover x hxnode

/-- With every name of the order registered, a cycle in the built graph
makes the cycle check fail with a cyclic-dependency error naming a genuine
cycle of the graph. -/
theorem checkCyclicDeps_cycle_error (reg : List TaskSpec)
    (order : List String) (g : List (String × List String))
    (hbuild : buildGraph reg order order = .ok g)
    (hcyc : ∃ c, IsCycle g c) :
    ∃ c2, checkCyclicDeps reg order = .error (.cyclicDependency c2) ∧
      IsCycle g c2 := by
  cases hrun : checkCyclicDeps reg order with
  | ok u =>
    obtain ⟨c, hc⟩ := hcyc
    cases u
    exact absurd hc (checkCyclicDeps_ok_no_cycle reg order g hbuild hrun c)
  | error e =>
    have herrshape : e = .fuelExhausted ∨
        ∃ c2, e = .cyclicDependency c2 ∧ IsCycle g c2 := by
      unfold checkCyclicDeps at hrun
      rw [hbuild] at hrun
      exact checkCyclicLoop_err g (order.length + 1) order [] e hrun
    rcases herrshape with hfuel | ⟨c2, he, hc2⟩
    · exfalso
      subst hfuel
      unfold checkCyclicDeps at hrun
      rw [hbuild] at hrun
      -- the fuel never runs out
      have hkeys := (buildGraph_spec reg order order g hbuild).1
      have hclosed := buildGraph_closed reg order g hbuild
      have : ∀ (todo visited : List String),
          (∀ n ∈ todo, n ∈ g.map Prod.fst) →
          unvisCount g visited ≤ order.length →
          checkCyclicLoop g (order.length + 1) todo visited ≠
            .error .fuelExhausted := by
        intro todo
        induction todo with
        | nil => intro visited _ _ hx; cases hx
        | cons n rest ihn =>
          intro visited htodo hbound hx
          unfold checkCyclicLoop at hx
          by_cases hv : n ∈ visited
          · rw [if_pos hv] at hx
            exact ihn visited (fun m hm => htodo m (List.mem_cons_of_mem _ hm))
              hbound hx
          · rw [if_neg hv] at hx
            cases hr : hasCycleF g (order.length + 1) n [] visited with
            | error e2 =>
              rw [hr] at hx
              cases hx
              exact hasCycleF_nofuel g hclosed (order.length + 1) n [] visited
                hv (htodo n (List.mem_cons_self _ _)) (by omega) hr
            | ok v2 =>
              rw [hr] at hx
              refine ihn v2 (fun m hm => htodo m (List.mem_cons_of_mem _ hm))
                ?_ hx
              exact le_trans (unvisCount_mono g visited v2
                (hasCycleF_mono g _ n [] visited v2 hr).1) hbound
      refine this order [] (fun n hn => by rw [hkeys]; exact hn) ?_ hrun
      have hsub : (g.map Prod.fst).dedup.Sublist (g.map Prod.fst) :=
        List.dedup_sublist _
      have hlen3 : (g.map Prod.fst).length = order.length := by rw [hkeys]
      have hlen2 : (g.map Prod.fst).dedup.length ≤ order.length := by
        have := hsub.length_le
        omega
      have hfle : ((g.map Prod.fst).dedup.filter
          (fun x => !(([] : List String).contains x))).length ≤
          (g.map Prod.fst).dedup.length := List.length_filter_le _ _
      unfold unvisCount
      exact le_trans hfle hlen2
    · refine ⟨c2, ?_, hc2⟩
      rw [he]

/-- The top-level cycle-check loop never exhausts the fuel budget
`order.length + 1` supplied by `checkCyclicDeps`. -/
theorem checkCyclicLoop_nofuel (g : List (String × List String)) (F : Nat)
    (hclosed : ∀ a nb, nb ∈ gnb g a → nb ∈ g.map Prod.fst) :
    ∀ (todo visited : List String),
      (∀ n ∈ todo, n ∈ g.map Prod.fst) →
      unvisCount g visited ≤ F →
      checkCyclicLoop g (F + 1) todo visited ≠ .error .fuelExhausted := by
  intro todo
  induction todo with
  | nil => intro visited _ _ hx; cases hx
  | cons n rest ihn =>
    intro visited htodo hbound hx
    unfold checkCyclicLoop at hx
    by_cases hv : n ∈ visited
    · rw [if_pos hv] at hx
      exact ihn visited (fun m hm => htodo m (List.mem_cons_of_mem _ hm))
        hbound hx
    · rw [if_neg hv] at hx
      cases hr : hasCycleF g (F + 1) n [] visited with
      | error e2 =>
        rw [hr] at hx
        cases hx
        exact hasCycleF_nofuel g hclosed (F + 1) n [] visited hv
          (htodo n (List.mem_cons_self _ _)) (by omega) hr
      | ok v2 =>
        rw [hr] at hx
        refine ihn v2 (fun m hm => htodo m (List.mem_cons_of_mem _ hm)) ?_ hx
        exact le_trans (unvisCount_mono g visited v2
          (hasCycleF_mono g _ n [] visited v2 hr).1) hbound

/-- The cycle check of the validator never reports the model-artifact fuel
exhaustion. -/
theorem checkCyclicDeps_nofuel (reg : List TaskSpec) (order : List String)
    (g : List (String × List String))
    (hbuild : buildGraph reg order order = .ok g) :
    checkCyclicDeps reg order ≠ .error .fuelExhausted := by
  intro hx
  unfold checkCyclicDeps at hx
  rw [hbuild] at hx
  have hkeys := (buildGraph_spec reg order order g hbuild).1
  have hsub : (g.map Prod.fst).dedup.Sublist (g.map Prod.fst) :=
    List.dedup_sublist _
  have hlen3 : (g.map Prod.fst).length = order.length := by rw [hkeys]
  have hlen2 : (g.map Prod.fst).dedup.length ≤ order.length := by
    have := hsub.length_le
    omega
  refine checkCyclicLoop_nofuel g order.length
    (buildGraph_closed reg order g hbuild) order []
    (fun n hn => by rw [hkeys]; exact hn) ?_ hx
  have hfle : ((g.map Prod.fst).dedup.filter
      (fun x => !(([] : List String).contains x))).length ≤
      (g.map Prod.fst).dedup.length := List.length_filter_le _ _
  unfold unvisCount
  exact le_trans hfle hlen2

/-- A task whose dependencies all sit strictly earlier in the order is
clean for the order-consistency check. -/
theorem cleanTask_intro (reg : List TaskSpec) (order : List String)
    (n : String) (t : TaskSpec) (hreg : regGet reg n = some t)
    (hdeps : ∀ d ∈ t.depends_on, d ∈ order ∧
      lastPos order d < lastPos order n) :
    cleanTask reg order n = true := by
  unfold cleanTask
  rw [hreg]
  dsimp only
  rw [List.all_eq_true]
  intro d hd
  obtain ⟨h1, h2⟩ := hdeps d hd
  simp only [Bool.and_eq_true, decide_eq_true_eq]
  exact ⟨(contains_iff_mem _ _).mpr h1, h2⟩

/-- Every name of the order resolves once the graph build succeeded. -/
theorem buildGraph_registered (reg : List TaskSpec) (order : List String)
    (g : List (String × List String))
    (hbuild : buildGraph reg order order = .ok g) :
    ∀ n ∈ order, ∃ t, regGet reg n = some t := by
  intro n hn
  obtain ⟨hkeys, hvals⟩ := buildGraph_spec reg order order g hbuild
  rw [← hkeys] at hn
  obtain ⟨p, hp, hp1⟩ := List.mem_map.mp hn
  obtain ⟨t, hreg, -⟩ := hvals p hp
  exact ⟨t, hp1 ▸ hreg⟩

/-- Edges of the built graph strictly decrease the last-occurrence position
under a dependency-consistent order. -/
theorem gnb_rank_decreasing (reg : List TaskSpec) (order : List String)
    (g : List (String × List String))
    (hbuild : buildGraph reg order order = .ok g)
    (hcons : ∀ n ∈ order, ∃ t, regGet reg n = some t ∧
      ∀ d ∈ t.depends_on, d ∈ order ∧ lastPos order d < lastPos order n) :
    ∀ a b, b ∈ gnb g a → lastPos order b < lastPos order a := by
  obtain ⟨hkeys, hvals⟩ := buildGraph_spec reg order order g hbuild
  intro a b hb
  unfold gnb at hb
  cases hfind : g.find? (fun p => p.1 == a) with
  | none => rw [hfind] at hb; cases hb
  | some p =>
    rw [hfind] at hb
    dsimp only at hb
    have hpa : p.1 = a := by
      have := List.find?_some hfind
      simpa using this
    have hpmem : p ∈ g := List.mem_of_find?_eq_some hfind
    obtain ⟨t, hreg, hp2⟩ := hvals p hpmem
    rw [hp2] at hb
    have hbd : b ∈ t.depends_on := List.mem_of_mem_filter hb
    have hao : a ∈ order := by
      rw [← hkeys]
      exact hpa ▸ List.mem_map.mpr ⟨p, hpmem, rfl⟩
    obtain ⟨t2, hreg2, hdeps2⟩ := hcons a hao
    rw [hpa] at hreg
    rw [hreg] at hreg2
    cases hreg2
    exact (hdeps2 b hbd).2

/-- C8: cycle detection of `DependencyValidator.validate`.  For a
`task_order` whose order-restricted dependency graph contains a cycle,
validation fails with a cyclic-dependency error naming a genuine cycle of
that graph (an edge-chain whose closing name repeats its opening name); for
a `task_order` all of whose dependencies sit strictly earlier, validation
succeeds; and a task listing itself is concretely reported as the
length-one cycle `s -> s`. -/
theorem C8_cycle_detection (reg : List TaskSpec) (order : List String)
    (g : List (String × List String))
    (hbuild : buildGraph reg order order = .ok g) :
    ((∃ c, IsCycle g c) →
      ∃ c2, validateModel reg order = .error (.cyclicDependency c2) ∧
        IsCycle g c2) ∧
    ((∀ n ∈ order, ∃ t, regGet reg n = some t ∧
        ∀ d ∈ t.depends_on, d ∈ order ∧ lastPos order d < lastPos order n) →
      validateModel reg order = .ok ()) ∧
    validateModel selfReg ["s"] = .error (.cyclicDependency ["s", "s"]) := by
  have hexist : checkAllTasksExist reg order = .ok () := by
    unfold checkAllTasksExist
    rw [if_pos]
    rw [List.isEmpty_iff_eq_nil, List.filter_eq_nil]
    intro n hn
    obtain ⟨t, hreg⟩ := buildGraph_registered reg order g hbuild n hn
    rw [hreg]
    simp
  refine ⟨?_, ?_, rfl⟩
  · intro hcyc
    obtain ⟨c2, herr, hc2⟩ := checkCyclicDeps_cycle_error reg order g hbuild hcyc
    refine ⟨c2, ?_, hc2⟩
    unfold validateModel
    rw [hexist, herr]
    rfl
  · intro hcons
    have hnocycle : ∀ c, ¬ IsCycle g c :=
      no_cycle_of_rank g (lastPos order)
        (gnb_rank_decreasing reg order g hbuild hcons)
    have hcycok : checkCyclicDeps reg order = .ok () := by
      cases hrun : checkCyclicDeps reg order with
      | ok u => cases u; rfl
      | error e =>
        exfalso
        have herrshape : e = .fuelExhausted ∨
            ∃ c2, e = .cyclicDependency c2 ∧ IsCycle g c2 := by
          unfold checkCyclicDeps at hrun
          rw [hbuild] at hrun
          exact checkCyclicLoop_err g (order.length + 1) order [] e hrun
        rcases herrshape with hfuel | ⟨c2, he, hc2⟩
        · exact checkCyclicDeps_nofuel reg order g hbuild (hfuel ▸ hrun)
        · exact hnocycle c2 hc2
    have hdepsok : checkDepsInOrder reg order = .ok () := by
      unfold checkDepsInOrder
      have hpre := depsloop_clean_front reg order order []
        (fun m hm => by
          obtain ⟨t, hreg, hdeps⟩ := hcons m hm
          exact cleanTask_intro reg order m t hreg hdeps)
      rw [List.append_nil] at hpre
      rw [hpre]
      rfl
    unfold validateModel
    rw [hexist, hcycok, hdepsok]
    rfl

/-- C8, witness: a self-depending task fails validation with the length-one
cycle naming it twice. -/
theorem C8_cycle_detection_witness :
    ∃ c2, validateModel selfReg ["s"] = .error (.cyclicDependency c2) ∧
      IsCycle [("s", ["s"])] c2 :=
  (C8_cycle_detection selfReg ["s"] [("s", ["s"])] rfl).1
    ⟨["s", "s"], by decide, rfl, by
      rw [List.chain'_cons]
      exact ⟨by decide, List.chain'_singleton _⟩⟩
